import Mathlib

/-!
Verification of the MTL-Tools translation pipeline (`translate.py`).

Strings are modelled as `List Char` (`Str`); Python string literals are
written as Lean string literals via `.data`.  The remote HTTP service is
modelled by oracles: for the transport layer an oracle `Nat → Option Str`
gives the outcome of each HTTP attempt (`none` = any exception: connection
error, timeout, non-success status, malformed body); at the level of
`translate_text` / `translate_batch` an oracle gives the net result of each
`call_llm` invocation.  Prompt text (context preambles, numbered batch
messages) only influences the remote answer, which the oracle supplies, so
prompt construction is not reproduced where it cannot affect the claims.
-/

namespace MTL

/-- Python strings, modelled as lists of characters. -/
abbrev Str := List Char

/-- Whitespace characters recognised by Python's `str.strip()` (ASCII part). -/
def isSpace (c : Char) : Bool :=
  c = ' ' || c = '\t' || c = '\n' || c = '\r' || c = '\x0b' || c = '\x0c'

/-- Python `str.strip()`: drop leading and trailing whitespace. -/
def pyStrip (s : Str) : Str :=
  ((s.dropWhile isSpace).reverse.dropWhile isSpace).reverse

/-- Python `str.split('\n')`: split at every newline, keeping empty pieces. -/
def splitOnNl : Str → List Str
  | [] => [[]]
  | c :: rest =>
    if c = '\n' then [] :: splitOnNl rest
    else
      match splitOnNl rest with
      | [] => [[c]]
      | piece :: more => (c :: piece) :: more

/-- Python `str.lower()` restricted to ASCII letters (the only comparisons
in the source use the ASCII sentinel `"monologue"`). -/
def asciiLower (s : Str) : Str :=
  s.map fun c => if 'A' ≤ c && c ≤ 'Z' then Char.ofNat (c.toNat + 32) else c

/-- One replacement pass of `str.replace` for the non-empty pattern
`k :: ks`: scan left to right, replacing every non-overlapping occurrence.
The `fuel` argument is only a structural recursion bound; it starts at the
length of the subject string, and since every step consumes at least one
character it is never exhausted. -/
def replaceFrom (k : Char) (ks : Str) (val : Str) : Nat → Str → Str
  | _, [] => []
  | 0, s => s
  | fuel + 1, c :: rest =>
    if (k :: ks).isPrefixOf (c :: rest) then
      val ++ replaceFrom k ks val fuel (rest.drop ks.length)
    else
      c :: replaceFrom k ks val fuel rest

/-- Python `str.replace(key, val)`.  An empty key inserts `val` before every
character and at the end, as CPython does. -/
def pyReplace (s : Str) (key val : Str) : Str :=
  match key with
  | [] => val ++ s.foldr (fun c acc => c :: (val ++ acc)) []
  | k :: ks => replaceFrom k ks val s.length s

/-- `TranslationPipeline.preprocess_text`: apply every dictionary entry with
`str.replace`, in dictionary (insertion) order. -/
def preprocess_text (dict : List (Str × Str)) (text : Str) : Str :=
  dict.foldl (fun acc kv => pyReplace acc kv.1 kv.2) text

/-- Character ranges of `TranslationPipeline.contains_japanese`. -/
def isJapaneseChar (c : Char) : Bool :=
  (0x3040 ≤ c.toNat && c.toNat ≤ 0x309F) ||
  (0x30A0 ≤ c.toNat && c.toNat ≤ 0x30FF) ||
  (0x4E00 ≤ c.toNat && c.toNat ≤ 0x9FFF)

/-- `TranslationPipeline.contains_japanese`: true iff some character lies in
the Hiragana, Katakana or CJK Unified Ideographs block (empty text: false). -/
def contains_japanese (s : Str) : Bool := s.any isJapaneseChar

/-! ## Context window -/

/-- One entry of `self.current_context`. -/
structure ContextEntry where
  jpName : Str
  jpText : Str
  enName : Str
  enText : Str
deriving DecidableEq

/-- `TranslationPipeline.add_to_context`: when the window is enabled
(`context_lines > 0`), append the entry and `pop(0)` once if the window now
exceeds `context_lines`. -/
def add_to_context (context_lines : Nat) (ctx : List ContextEntry)
    (e : ContextEntry) : List ContextEntry :=
  if context_lines > 0 then
    let ctx' := ctx ++ [e]
    if ctx'.length > context_lines then ctx'.drop 1 else ctx'
  else ctx

/-! ## Remote translation client -/

/-- Relevant fields of `config['translation_settings']`.  `retry_attempts`
bounds both transport retries and retry-on-Japanese; defaults are the
`.get(..., default)` values of the source. -/
structure TransConfig where
  retry_attempts : Nat := 3
  retry_on_japanese : Bool := true
  batch_size : Nat := 25
  enable_two_pass : Bool := false
  second_pass_model : Option Str := none
  second_pass_temperature : Int := 3
deriving DecidableEq

/-- The mutable part of `config['llm_settings']` that the escalation pass
swaps: model identifier and sampling temperature.  The temperature is only
ever stored, compared and restored, never computed with, so an abstract
numeric type (`Int`) represents it. -/
structure LLMState where
  model : Str
  temperature : Int
deriving DecidableEq

/-- `TranslationPipeline.call_llm`.  `transport i` is the outcome of HTTP
attempt `i`: `some content` when the request, status check and body parse
all succeed (the code then returns `content.strip()`), `none` when any
exception is raised inside the `try` block (connection error, timeout,
`raise_for_status`, malformed JSON body) — the bare `except Exception`
catches them all.  Returns (result, number of HTTP attempts made, number of
`retry_delay` sleeps performed). -/
def call_llm (cfg : TransConfig) (transport : Nat → Option Str)
    (retry_count : Nat) : Option Str × Nat × Nat :=
  match transport retry_count with
  | some content => (some (pyStrip content), 1, 0)
  | none =>
    if retry_count < cfg.retry_attempts then
      let r := call_llm cfg transport (retry_count + 1)
      (r.1, r.2.1 + 1, r.2.2 + 1)
    else
      (none, 1, 0)
termination_by cfg.retry_attempts + 1 - retry_count
decreasing_by
  simp_wf
  omega

/-! ## Single-unit translation -/

/-- `TranslationPipeline.translate_text`.  `oracle k` is the net result of
the `call_llm` invocation at recursion depth `k` (`none` = transport
exhausted, `some s` = stripped content `s`).  Returns the translation
together with the number of `call_llm` invocations performed.  The
`use_context` flag only changes the prompt preamble, which is absorbed by
the oracle. -/
def translate_text (cfg : TransConfig) (dict : List (Str × Str))
    (oracle : Nat → Option Str) (text : Str) (is_name : Bool)
    (retry_count : Nat) : Str × Nat :=
  let preprocessed := preprocess_text dict text
  if is_name ∧ preprocessed ≠ text then
    (preprocessed, 0)
  else
    match oracle retry_count with
    | none => (preprocessed, 1)
    | some translated =>
      -- `if not translated: return preprocessed` — empty string is falsy
      if translated = [] then (preprocessed, 1)
      else if cfg.retry_on_japanese ∧ retry_count < cfg.retry_attempts
              ∧ contains_japanese translated then
        let r := translate_text cfg dict oracle text is_name (retry_count + 1)
        (r.1, r.2 + 1)
      else
        (translated, 1)
termination_by cfg.retry_attempts + 1 - retry_count
decreasing_by
  simp_wf
  omega

/-! ## Batch translation -/

/-- One line of the reply, already stripped, matched against the regex
`^\d+[\.\)\:]\s*(.+)$` of `translate_batch`: a non-empty run of digits, one
of `.` `)` `:`, optional whitespace, then a non-empty remainder.  On a match
the captured remainder is contributed, otherwise the line is kept verbatim. -/
def parseLine (line : Str) : Str :=
  let ds := line.takeWhile Char.isDigit
  let rest := line.dropWhile Char.isDigit
  if ds = [] then line
  else
    match rest with
    | [] => line
    | sep :: rest2 =>
      if sep = '.' ∨ sep = ')' ∨ sep = ':' then
        let rem := rest2.dropWhile isSpace
        if rem = [] then line else rem
      else line

/-- The line loop of `translate_batch`: strip the reply, split on newlines,
skip lines that are empty after stripping, and parse each remaining line. -/
def parse_reply (reply : Str) : List Str :=
  (splitOnNl (pyStrip reply)).filterMap fun line =>
    let l := pyStrip line
    if l = [] then none else some (parseLine l)

/-- The `while len(translations) < len(texts)` padding loop of
`translate_batch`: repeatedly append `preprocessed[len(translations)]`.
`fuel` is a structural bound on the iterations; `preprocessed.length`
iterations always suffice. -/
def pad_loop (preprocessed : List Str) : Nat → List Str → List Str
  | 0, translations => translations
  | fuel + 1, translations =>
    if translations.length < preprocessed.length then
      pad_loop preprocessed fuel
        (translations ++ [preprocessed.getD translations.length []])
    else translations

/-- The padding loop entered with enough fuel. -/
def pad_translations (preprocessed translations : List Str) : List Str :=
  pad_loop preprocessed preprocessed.length translations

/-- Padding followed by the `translations[:len(texts)]` truncation. -/
def assemble (preprocessed : List Str) (translations : List Str) : List Str :=
  (pad_translations preprocessed translations).take preprocessed.length

/-- `TranslationPipeline.translate_batch`.  `oracle k` is the net result of
the single `call_llm` made by the invocation at retry-on-Japanese depth `k`.
Returns the per-unit results and the number of `call_llm` invocations. -/
def translate_batch (cfg : TransConfig) (dict : List (Str × Str))
    (oracle : Nat → Option Str) (texts : List Str) (retry_count : Nat) :
    List Str × Nat :=
  if texts = [] then ([], 0)
  else
    let preprocessed := texts.map (preprocess_text dict)
    match oracle retry_count with
    | none => (preprocessed, 1)
    | some result =>
      -- `if not result: return preprocessed` — empty string is falsy
      if result = [] then (preprocessed, 1)
      else
        let translations := assemble preprocessed (parse_reply result)
        if cfg.retry_on_japanese ∧ retry_count < cfg.retry_attempts
            ∧ translations.any contains_japanese then
          let r := translate_batch cfg dict oracle texts (retry_count + 1)
          (r.1, r.2 + 1)
        else
          (translations, 1)
termination_by cfg.retry_attempts + 1 - retry_count
decreasing_by
  simp_wf
  omega

/-! ## Record sets -/

/-- One element of a block's `choices` array. -/
structure Choice where
  jpText : Str
  enText : Str
deriving DecidableEq

/-- One element of `data['text']`.  Only the fields the pipeline reads or
writes are modelled. -/
structure Block where
  jpName : Str
  enName : Str
  jpText : Str
  enText : Str
  choices : List Choice
deriving DecidableEq

/-- A Translation Unit's slot, addressed by position in the block list (and
choice position for choice units).  In the source this is the object
reference plus kind stored in `all_items`. -/
inductive UnitRef where
  | name (blockPos : Nat)
  | text (blockPos : Nat)
  | choice (blockPos : Nat) (choicePos : Nat)
deriving DecidableEq

/-- Replace the element at position `i` (no-op when out of range). -/
def modifyIdx {α : Type} (l : List α) (i : Nat) (f : α → α) : List α :=
  match l, i with
  | [], _ => []
  | a :: rest, 0 => f a :: rest
  | a :: rest, i + 1 => a :: modifyIdx rest i f

/-- Write a translation into a unit's target-text slot
(`obj['enName'] = ...` / `obj['enText'] = ...`). -/
def write_unit (blocks : List Block) (r : UnitRef) (s : Str) : List Block :=
  match r with
  | .name i => modifyIdx blocks i fun b => { b with enName := s }
  | .text i => modifyIdx blocks i fun b => { b with enText := s }
  | .choice i j =>
    modifyIdx blocks i fun b =>
      { b with choices := modifyIdx b.choices j fun c => { c with enText := s } }

/-- Read a unit's target-text slot (`none` when the reference is out of
range). -/
def read_unit (blocks : List Block) (r : UnitRef) : Option Str :=
  match r with
  | .name i => (blocks.get? i).map Block.enName
  | .text i => (blocks.get? i).map Block.enText
  | .choice i j => (blocks.get? i).bind fun b => (b.choices.get? j).map Choice.enText

/-! ## Collection of pending units (`_translate_json_batched`) -/

/-- The `name_items` loop: `en_name == '' and jp_name and jp_name.strip()`. -/
def collect_name_items : Nat → List Block → List (UnitRef × Str)
  | _, [] => []
  | i, b :: rest =>
    (if b.enName = [] ∧ b.jpName ≠ [] ∧ pyStrip b.jpName ≠ [] then
      [(UnitRef.name i, b.jpName)]
    else []) ++ collect_name_items (i + 1) rest

/-- The `text_items` loop: `en_text == '' and jp_text` (no whitespace test). -/
def collect_text_items : Nat → List Block → List (UnitRef × Str)
  | _, [] => []
  | i, b :: rest =>
    (if b.enText = [] ∧ b.jpText ≠ [] then
      [(UnitRef.text i, b.jpText)]
    else []) ++ collect_text_items (i + 1) rest

/-- The inner `choice_items` loop over one block's choices:
`choice.get('enText', '') == '' and choice.get('jpText')`. -/
def collect_block_choices (i : Nat) : Nat → List Choice → List (UnitRef × Str)
  | _, [] => []
  | j, c :: rest =>
    (if c.enText = [] ∧ c.jpText ≠ [] then
      [(UnitRef.choice i j, c.jpText)]
    else []) ++ collect_block_choices i (j + 1) rest

/-- The `choice_items` loop over all blocks. -/
def collect_choice_items : Nat → List Block → List (UnitRef × Str)
  | _, [] => []
  | i, b :: rest =>
    collect_block_choices i 0 b.choices ++ collect_choice_items (i + 1) rest

/-- `all_items = name_items + text_items + choice_items`. -/
def collect_all_items (blocks : List Block) : List (UnitRef × Str) :=
  collect_name_items 0 blocks ++ collect_text_items 0 blocks ++
    collect_choice_items 0 blocks

/-! ## The batched pass -/

/-- Split `all_items` into consecutive batches of `batch_size` (the
`range(num_batches)` slicing loop).  A `batch_size` of 0 has no Python
counterpart (division by zero in `num_batches`); the model returns no
batches in that case. -/
def chunksAux {α : Type} (n : Nat) : Nat → List α → List (List α)
  | _, [] => []
  | 0, _ => []
  | fuel + 1, a :: rest =>
    if n = 0 then []
    else (a :: rest).take n :: chunksAux n fuel ((a :: rest).drop n)

def chunks {α : Type} (n : Nat) (l : List α) : List (List α) :=
  chunksAux n l.length l

/-- The per-batch assignment loop of `_translate_json_batched`: write each
translation into its unit's slot, record every write, collect items whose
written translation still contains Japanese into `failed_items`, and count
each assignment.  Returns (blocks, write trace, failed items, count). -/
def process_batch_items (blocks : List Block) :
    List ((UnitRef × Str) × Str) →
    List Block × List (UnitRef × Str) × List ((UnitRef × Str) × Str) × Nat
  | [] => (blocks, [], [], 0)
  | ((r, src), t) :: rest =>
    let blocks1 := write_unit blocks r t
    let res := process_batch_items blocks1 rest
    (res.1, (r, t) :: res.2.1,
      (if contains_japanese t then ((r, src), t) :: res.2.2.1 else res.2.2.1),
      res.2.2.2 + 1)

/-- The batch loop of `_translate_json_batched`.  `oracle k` is the
`call_llm`-level oracle handed to the `translate_batch` call for batch `k`
(batched mode passes `use_context=False`).  Accumulates blocks, the write
trace, `failed_items`, `translated_count` and the total number of
`call_llm` invocations. -/
def run_batches (cfg : TransConfig) (dict : List (Str × Str))
    (oracle : Nat → Nat → Option Str) (blocks : List Block) :
    List (List (UnitRef × Str)) → Nat →
    List Block × List (UnitRef × Str) × List ((UnitRef × Str) × Str) × Nat × Nat
  | [], _ => (blocks, [], [], 0, 0)
  | batch :: rest, k =>
    let batch_texts := batch.map Prod.snd
    let tb := translate_batch cfg dict (oracle k) batch_texts 0
    let assigned := process_batch_items blocks (batch.zip tb.1)
    let res := run_batches cfg dict oracle assigned.1 rest (k + 1)
    (res.1, assigned.2.1 ++ res.2.1, assigned.2.2.1 ++ res.2.2.1,
      assigned.2.2.2 + res.2.2.2.1, tb.2 + res.2.2.2.2)

/-! ## Post-processing cleanup (`_clean_monologue_names`) -/

/-- One block of the cleanup loop: blank `enName` when it equals the
sentinel `'monologue'` case-insensitively; blank `enText` under the same
test when `jpText` is empty or whitespace-only. -/
def clean_block (b : Block) : Block :=
  let b1 := if asciiLower b.enName = "monologue".data then
      { b with enName := [] } else b
  if (b1.jpText = [] ∨ pyStrip b1.jpText = []) ∧
      asciiLower b1.enText = "monologue".data then
    { b1 with enText := [] }
  else b1

/-- `TranslationPipeline._clean_monologue_names` (block mutation only; the
returned count is not used by any claim). -/
def clean_monologue_names (blocks : List Block) : List Block :=
  blocks.map clean_block

/-! ## Escalation pass (`_second_pass_translation`) -/

/-- The per-item update loop of one escalation batch: `pairs` zips each
failed item `((ref, source text), old translation)` with its new
translation.  An empty new translation keeps the prior slot value; a new
translation still containing Japanese keeps the prior value; otherwise the
slot is overwritten and the item counted as fixed. -/
def sp_items_update (blocks : List Block) :
    List (((UnitRef × Str) × Str) × Str) → List Block × Nat
  | [] => (blocks, 0)
  | (((r, _src), _old), newT) :: rest =>
    if newT = [] then sp_items_update blocks rest
    else if contains_japanese newT then sp_items_update blocks rest
    else
      let res := sp_items_update (write_unit blocks r newT) rest
      (res.1, res.2 + 1)

/-- The batch loop of the escalation pass.  `tb k` abstracts the
`translate_batch` call for escalation batch `k`: `Except.error ()` models
an exception escaping it (the `try/except` arm), `Except.ok ts` its
returned list.  A batch whose result is empty or all-empty aborts the loop
(`model_not_loaded`), as does an exception; remaining batches are
abandoned.  Returns (blocks, fixed count, aborted flag). -/
def sp_loop (tb : Nat → Except Unit (List Str)) (blocks : List Block) :
    List (List ((UnitRef × Str) × Str)) → Nat → List Block × Nat × Bool
  | [], _ => (blocks, 0, false)
  | batch :: rest, k =>
    match tb k with
    | .error _ => (blocks, 0, true)
    | .ok translations =>
      if translations = [] ∨ translations.all (· = []) then (blocks, 0, true)
      else
        let upd := sp_items_update blocks (batch.zip translations)
        let res := sp_loop tb upd.1 rest (k + 1)
        (res.1, upd.2 + res.2.1, res.2.2)

/-- `TranslationPipeline._second_pass_translation`.  Saves the active model
and temperature, skips the pass when the configured second model equals the
primary (or none is configured), otherwise swaps them in, runs the batch
loop over the failed items, and restores the saved values on the single
exit path after the loop.  Returns (blocks, llm state, fixed count). -/
def second_pass (cfg : TransConfig) (st : LLMState)
    (tb : Nat → Except Unit (List Str)) (blocks : List Block)
    (failed_items : List ((UnitRef × Str) × Str)) :
    List Block × LLMState × Nat :=
  if failed_items = [] then (blocks, st, 0)
  else
    let original_model := st.model
    let original_temp := st.temperature
    let second_model := cfg.second_pass_model.getD original_model
    let second_temp := cfg.second_pass_temperature
    if second_model = original_model then (blocks, st, 0)
    else
      let _st1 : LLMState := { model := second_model, temperature := second_temp }
      let res := sp_loop tb blocks (chunks cfg.batch_size failed_items) 0
      (res.1, { model := original_model, temperature := original_temp }, res.2.1)

/-! ## Whole-file pipeline (batched mode) -/

/-- `TranslationPipeline._translate_json_batched`: collect pending units,
return immediately when there are none, otherwise run the batch loop and,
when some items failed validation and two-pass is enabled, the escalation
pass.  Returns (blocks, llm state, write trace of the main pass,
`call_llm` invocation count of the main pass). -/
def translate_json_batched (cfg : TransConfig) (dict : List (Str × Str))
    (oracle : Nat → Nat → Option Str) (tb : Nat → Except Unit (List Str))
    (st : LLMState) (blocks : List Block) :
    List Block × LLMState × List (UnitRef × Str) × Nat :=
  let items := collect_all_items blocks
  if items = [] then (blocks, st, [], 0)
  else
    let res := run_batches cfg dict oracle blocks (chunks cfg.batch_size items) 0
    let failed := res.2.2.1
    if failed ≠ [] ∧ cfg.enable_two_pass then
      let sp := second_pass cfg st tb res.1 failed
      (sp.1, sp.2.1, res.2.1, res.2.2.2.2)
    else
      (res.1, st, res.2.1, res.2.2.2.2)

/-- `TranslationPipeline.translate_json_file` in batched mode, up to file
I/O: the batched translation followed by the cleanup pass.  Returns
(final blocks, llm state, `call_llm` invocation count of the main pass). -/
def translate_json_file_model (cfg : TransConfig) (dict : List (Str × Str))
    (oracle : Nat → Nat → Option Str) (tb : Nat → Except Unit (List Str))
    (st : LLMState) (blocks : List Block) : List Block × LLMState × Nat :=
  let res := translate_json_batched cfg dict oracle tb st blocks
  (clean_monologue_names res.1, res.2.1, res.2.2.2)

/-! ## File-level concurrency (`_translate_folder_concurrent`)

Each worker of the thread pool runs `process_file`, which constructs its
own `TranslationPipeline` instance — own configuration snapshot, own
context window, own escalation state — and drives it over its own file.  A
worker's run is modelled as a `Job` advanced by `jobStep`, one batch per
step (interleaving at a finer grain cannot differ, because no state is
shared at any grain); a schedule interleaves the two workers' steps. -/

structure Job where
  cfg : TransConfig
  dict : List (Str × Str)
  oracle : Nat → Nat → Option Str
  tb : Nat → Except Unit (List Str)
  blocks : List Block
  st : LLMState
  pending : List (List (UnitRef × Str))
  k : Nat
  failed : List ((UnitRef × Str) × Str)
  done : Bool

/-- A fresh pipeline instance for one file: collect the file's pending
units and batch them; nothing is inherited from any other worker. -/
def initJob (cfg : TransConfig) (dict : List (Str × Str))
    (oracle : Nat → Nat → Option Str) (tb : Nat → Except Unit (List Str))
    (st : LLMState) (blocks : List Block) : Job :=
  { cfg := cfg, dict := dict, oracle := oracle, tb := tb, blocks := blocks,
    st := st, pending := chunks cfg.batch_size (collect_all_items blocks),
    k := 0, failed := [], done := false }

/-- The escalation-then-cleanup tail of one file's run. -/
def finishFile (cfg : TransConfig) (st : LLMState)
    (tb : Nat → Except Unit (List Str)) (blocks : List Block)
    (failed : List ((UnitRef × Str) × Str)) : List Block × LLMState :=
  if failed ≠ [] ∧ cfg.enable_two_pass then
    let sp := second_pass cfg st tb blocks failed
    (clean_monologue_names sp.1, sp.2.1)
  else
    (clean_monologue_names blocks, st)

/-- One scheduling step of a worker: process the next batch, or, when all
batches are done, run the escalation pass and cleanup and mark the job
done.  A done job is left untouched. -/
def jobStep (j : Job) : Job :=
  if j.done then j
  else
    match j.pending with
    | batch :: rest =>
      let tbr := translate_batch j.cfg j.dict (j.oracle j.k) (batch.map Prod.snd) 0
      let assigned := process_batch_items j.blocks (batch.zip tbr.1)
      { j with blocks := assigned.1, failed := j.failed ++ assigned.2.2.1,
               pending := rest, k := j.k + 1 }
    | [] =>
      let fin := finishFile j.cfg j.st j.tb j.blocks j.failed
      { j with blocks := fin.1, st := fin.2, done := true }

/-- Iterate `jobStep`. -/
def jobIter : Nat → Job → Job
  | 0, j => j
  | n + 1, j => jobIter n (jobStep j)

/-- Run two workers under a schedule: `false` steps the first worker,
`true` the second. -/
def runPair (sched : List Bool) (p : Job × Job) : Job × Job :=
  match sched with
  | [] => p
  | b :: rest => runPair rest (if b then (p.1, jobStep p.2) else (jobStep p.1, p.2))

/-- Number of steps after which a fresh job is certainly done: one per
batch plus the finishing step. -/
def jobSteps (j : Job) : Nat := j.pending.length + 1

/-! ## Concrete fixtures shared by several claims -/

/-- Default translation settings (the `.get` defaults of the source). -/
def cfgD : TransConfig := {}

/-- An arbitrary initial llm state. -/
def stD : LLMState := { model := "m".data, temperature := 7 }

/-- The whole `current_context` of a run, starting (as `reset_context`
does) from the empty window. -/
def pipeline_context (cap : Nat) (entries : List ContextEntry) :
    List ContextEntry :=
  entries.foldl (add_to_context cap) []

def entryA : ContextEntry := ⟨"A".data, [], [], []⟩

def entryB : ContextEntry := ⟨"B".data, [], [], []⟩

def entryC : ContextEntry := ⟨"C".data, [], [], []⟩

/-! ## Context window lemmas (C7) -/

theorem add_to_context_length_le (cap : Nat) (ctx : List ContextEntry)
    (e : ContextEntry) (h : ctx.length ≤ cap) :
    (add_to_context cap ctx e).length ≤ cap := by
  unfold add_to_context
  split
  · dsimp only
    split
    · rename_i hcap hover
      simp only [List.length_drop, List.length_append, List.length_singleton]
      omega
    · rename_i hcap hover
      simp only [List.length_append, List.length_singleton] at hover ⊢
      omega
  · exact h

theorem foldl_add_to_context_length_le (cap : Nat)
    (entries : List ContextEntry) :
    ∀ ctx : List ContextEntry, ctx.length ≤ cap →
      (entries.foldl (add_to_context cap) ctx).length ≤ cap := by
  induction entries with
  | nil => intro ctx h; simpa using h
  | cons e rest ih =>
    intro ctx h
    simpa using ih (add_to_context cap ctx e) (add_to_context_length_le cap ctx e h)

/-- C7.  The context window never holds more than `context_lines` entries;
an append below capacity pushes at the back; an append at capacity drops
the oldest entry and pushes at the back (FIFO); with capacity 2, appending
A, B, C leaves exactly [B, C]. -/
theorem c7_context_fifo :
    (∀ (cap : Nat) (entries : List ContextEntry),
        (pipeline_context cap entries).length ≤ cap)
    ∧ (∀ (cap : Nat) (ctx : List ContextEntry) (e : ContextEntry),
        ctx.length < cap → add_to_context cap ctx e = ctx ++ [e])
    ∧ (∀ (cap : Nat) (ctx : List ContextEntry) (e : ContextEntry),
        0 < cap → ctx.length = cap →
          add_to_context cap ctx e = ctx.drop 1 ++ [e])
    ∧ pipeline_context 2 [entryA, entryB, entryC] = [entryB, entryC] := by
  refine ⟨?_, ?_, ?_, ?_⟩
  · intro cap entries
    exact foldl_add_to_context_length_le cap entries [] (by simp)
  · intro cap ctx e h
    unfold add_to_context
    have hcap : 0 < cap := by omega
    have hnot : ¬ (ctx ++ [e]).length > cap := by
      simp only [List.length_append, List.length_singleton]; omega
    rw [if_pos hcap]
    dsimp only
    rw [if_neg hnot]
  · intro cap ctx e hcap hlen
    unfold add_to_context
    have hover : (ctx ++ [e]).length > cap := by
      simp only [List.length_append, List.length_singleton]; omega
    have hone : 1 ≤ ctx.length := by omega
    rw [if_pos hcap]
    dsimp only
    rw [if_pos hover, List.drop_append_of_le_length hone]
  · decide

/-- Witness for C7 at concrete inputs. -/
theorem c7_context_fifo_witness :
    add_to_context 2 [entryA] entryB = [entryA] ++ [entryB]
    ∧ add_to_context 2 [entryA, entryB] entryC
        = [entryA, entryB].drop 1 ++ [entryC] :=
  ⟨c7_context_fifo.2.1 2 [entryA] entryB (by decide),
   c7_context_fifo.2.2.1 2 [entryA, entryB] entryC (by decide) (by decide)⟩

/-! ## Remote client lemmas (C4) -/

theorem call_llm_exhaust (cfg : TransConfig) (transport : Nat → Option Str) :
    ∀ (n rc : Nat), cfg.retry_attempts = rc + n →
      (∀ i, rc ≤ i → i ≤ cfg.retry_attempts → transport i = none) →
      call_llm cfg transport rc = (none, n + 1, n) := by
  intro n
  induction n with
  | zero =>
    intro rc h1 h2
    rw [call_llm, h2 rc le_rfl (by omega)]
    have hnot : ¬ rc < cfg.retry_attempts := by omega
    simp [hnot]
  | succ m ih =>
    intro rc h1 h2
    rw [call_llm, h2 rc le_rfl (by omega)]
    have hlt : rc < cfg.retry_attempts := by omega
    simp only [hlt, if_true]
    rw [ih (rc + 1) (by omega) (fun i hi1 hi2 => h2 i (by omega) hi2)]

/-- C4.  The remote client, given a transport where every attempt up to the
bound fails (any exception: connection error, timeout, non-success status,
malformed body — all caught by the bare `except`), performs exactly
`retry_attempts + 1` attempts (the initial call plus `retry_attempts`
retries) with a `retry_delay` sleep before each retry, and returns `none`
to the caller; on a first-attempt success it returns the stripped content
after one attempt and no sleep.  The model is a total function into
`Option`, so no transport exception ever escapes. -/
theorem c4_transport_retry (cfg : TransConfig) (transport : Nat → Option Str) :
    ((∀ i, i ≤ cfg.retry_attempts → transport i = none) →
      call_llm cfg transport 0 =
        (none, cfg.retry_attempts + 1, cfg.retry_attempts))
    ∧ (∀ t, transport 0 = some t →
        call_llm cfg transport 0 = (some (pyStrip t), 1, 0)) := by
  constructor
  · intro hfail
    exact call_llm_exhaust cfg transport cfg.retry_attempts 0 (by omega)
      (fun i _ hi2 => hfail i hi2)
  · intro t ht
    rw [call_llm, ht]

/-- Witness for C4: two failing attempts then exhaustion with the default
bound 3 ⇒ 4 attempts, 3 sleeps, absent result; and an immediate success. -/
theorem c4_transport_retry_witness :
    call_llm cfgD (fun _ => none) 0 = (none, 4, 3)
    ∧ call_llm cfgD (fun _ => some " ok ".data) 0 = (some "ok".data, 1, 0) :=
  ⟨(c4_transport_retry cfgD (fun _ => none)).1 (fun _ _ => rfl),
   (c4_transport_retry cfgD (fun _ => some " ok ".data)).2 " ok ".data rfl⟩

/-! ## Escalation pass: configuration restore (C5) -/

/-- C5.  Whatever the escalation pass does — skipped because there are no
failed items, skipped because the second model equals the primary, run to
completion, aborted mid-pass on an empty batch result, or cut short by an
exception escaping a `translate_batch` call (`tb k = .error ()`) — the
model and temperature it leaves behind are exactly the pre-escalation
values.  The statement quantifies over every configuration, starting
state, batch outcome oracle, record set and failed-item list, so it covers
every combination of success, failure and abort. -/
theorem c5_escalation_restores (cfg : TransConfig) (st : LLMState)
    (tb : Nat → Except Unit (List Str)) (blocks : List Block)
    (failed_items : List ((UnitRef × Str) × Str)) :
    (second_pass cfg st tb blocks failed_items).2.1 = st := by
  unfold second_pass
  split
  · rfl
  · dsimp only
    split
    · rfl
    · rfl

/-! ## Unit slot read/write lemmas -/

theorem getElem?_modifyIdx {α : Type} (l : List α) (i j : Nat) (f : α → α) :
    (modifyIdx l i f)[j]? = if i = j then (l[j]?).map f else l[j]? := by
  induction l generalizing i j with
  | nil => simp [modifyIdx]
  | cons a rest ih =>
    cases i with
    | zero =>
      cases j with
      | zero => simp [modifyIdx]
      | succ j' => simp [modifyIdx]
    | succ i' =>
      cases j with
      | zero => simp [modifyIdx]
      | succ j' =>
        simp only [modifyIdx, List.getElem?_cons_succ]
        rw [ih i' j']
        by_cases h : i' = j'
        · simp [h]
        · have hne : ¬ (i' + 1 = j' + 1) := by omega
          simp [h, hne]

theorem read_unit_write_unit_other (blocks : List Block) (r r' : UnitRef)
    (s : Str) (h : r ≠ r') :
    read_unit (write_unit blocks r s) r' = read_unit blocks r' := by
  cases r with
  | name i =>
    cases r' with
    | name i' =>
      have hne : i ≠ i' := fun he => h (by rw [he])
      simp [read_unit, write_unit, List.get?_eq_getElem?, getElem?_modifyIdx, hne]
    | text i' =>
      simp only [read_unit, write_unit, List.get?_eq_getElem?, getElem?_modifyIdx]
      by_cases hii : i = i'
      · subst hii
        rw [if_pos rfl]
        cases blocks[i]? <;> rfl
      · rw [if_neg hii]
    | choice i' j' =>
      simp only [read_unit, write_unit, List.get?_eq_getElem?, getElem?_modifyIdx]
      by_cases hii : i = i'
      · subst hii
        rw [if_pos rfl]
        cases blocks[i]? <;> rfl
      · rw [if_neg hii]
  | text i =>
    cases r' with
    | name i' =>
      simp only [read_unit, write_unit, List.get?_eq_getElem?, getElem?_modifyIdx]
      by_cases hii : i = i'
      · subst hii
        rw [if_pos rfl]
        cases blocks[i]? <;> rfl
      · rw [if_neg hii]
    | text i' =>
      have hne : i ≠ i' := fun he => h (by rw [he])
      simp [read_unit, write_unit, List.get?_eq_getElem?, getElem?_modifyIdx, hne]
    | choice i' j' =>
      simp only [read_unit, write_unit, List.get?_eq_getElem?, getElem?_modifyIdx]
      by_cases hii : i = i'
      · subst hii
        rw [if_pos rfl]
        cases blocks[i]? <;> rfl
      · rw [if_neg hii]
  | choice i j =>
    cases r' with
    | name i' =>
      simp only [read_unit, write_unit, List.get?_eq_getElem?, getElem?_modifyIdx]
      by_cases hii : i = i'
      · subst hii
        rw [if_pos rfl]
        cases blocks[i]? <;> rfl
      · rw [if_neg hii]
    | text i' =>
      simp only [read_unit, write_unit, List.get?_eq_getElem?, getElem?_modifyIdx]
      by_cases hii : i = i'
      · subst hii
        rw [if_pos rfl]
        cases blocks[i]? <;> rfl
      · rw [if_neg hii]
    | choice i' j' =>
      simp only [read_unit, write_unit, List.get?_eq_getElem?, getElem?_modifyIdx]
      by_cases hii : i = i'
      · subst hii
        have hjj : j ≠ j' := by
          intro he
          exact h (by rw [he])
        rw [if_pos rfl]
        cases blocks[i]? with
        | none => rfl
        | some b =>
          simp only [Option.map_some', Option.some_bind, List.get?_eq_getElem?,
            getElem?_modifyIdx]
          rw [if_neg hjj]
      · rw [if_neg hii]

theorem read_unit_write_unit_same (blocks : List Block) (r : UnitRef)
    (s : Str) (h : (read_unit blocks r).isSome) :
    read_unit (write_unit blocks r s) r = some s := by
  cases r with
  | name i =>
    simp only [read_unit, write_unit, List.get?_eq_getElem?] at h ⊢
    rw [getElem?_modifyIdx, if_pos rfl]
    cases hb : blocks[i]? with
    | none => simp [hb] at h
    | some b => rfl
  | text i =>
    simp only [read_unit, write_unit, List.get?_eq_getElem?] at h ⊢
    rw [getElem?_modifyIdx, if_pos rfl]
    cases hb : blocks[i]? with
    | none => simp [hb] at h
    | some b => rfl
  | choice i j =>
    simp only [read_unit, write_unit, List.get?_eq_getElem?] at h ⊢
    rw [getElem?_modifyIdx, if_pos rfl]
    cases hb : blocks[i]? with
    | none => simp [hb] at h
    | some b =>
      simp only [hb, Option.some_bind] at h
      simp only [Option.map_some', Option.some_bind, List.get?_eq_getElem?]
      rw [getElem?_modifyIdx, if_pos rfl]
      cases hc : b.choices[j]? with
      | none => simp [hc] at h
      | some c => rfl

theorem read_unit_write_unit_isSome (blocks : List Block) (r r' : UnitRef)
    (s : Str) :
    (read_unit (write_unit blocks r s) r').isSome
      = (read_unit blocks r').isSome := by
  by_cases h : r = r'
  · subst h
    cases r with
    | name i =>
      simp only [read_unit, write_unit, List.get?_eq_getElem?]
      rw [getElem?_modifyIdx, if_pos rfl]
      cases blocks[i]? <;> rfl
    | text i =>
      simp only [read_unit, write_unit, List.get?_eq_getElem?]
      rw [getElem?_modifyIdx, if_pos rfl]
      cases blocks[i]? <;> rfl
    | choice i j =>
      simp only [read_unit, write_unit, List.get?_eq_getElem?]
      rw [getElem?_modifyIdx, if_pos rfl]
      cases blocks[i]? with
      | none => rfl
      | some b =>
        simp only [Option.map_some', Option.some_bind, List.get?_eq_getElem?]
        rw [getElem?_modifyIdx, if_pos rfl]
        cases b.choices[j]? <;> rfl
  · rw [read_unit_write_unit_other blocks r r' s h]

/-! ## Escalation pass: per-item update (C6) -/

/-- An escalation item counts as fixed iff its new translation is non-empty
and free of source-language characters. -/
def fixedP (p : ((UnitRef × Str) × Str) × Str) : Bool :=
  !p.2.isEmpty && !contains_japanese p.2

theorem sp_items_update_read_notin (pairs : List (((UnitRef × Str) × Str) × Str)) :
    ∀ (blocks : List Block) (r : UnitRef),
      r ∉ (pairs.map fun p => p.1.1.1) →
      read_unit (sp_items_update blocks pairs).1 r = read_unit blocks r := by
  induction pairs with
  | nil => intro blocks r _; rfl
  | cons p rest ih =>
    intro blocks r hr
    obtain ⟨⟨⟨pr, psrc⟩, pold⟩, pnew⟩ := p
    simp only [List.map_cons, List.mem_cons] at hr
    push_neg at hr
    unfold sp_items_update
    split
    · exact ih blocks r hr.2
    · split
      · exact ih blocks r hr.2
      · dsimp only
        rw [ih (write_unit blocks pr pnew) r hr.2]
        exact read_unit_write_unit_other blocks pr r pnew
          (fun he => hr.1 he.symm)

theorem sp_items_update_count (pairs : List (((UnitRef × Str) × Str) × Str)) :
    ∀ blocks : List Block,
      (sp_items_update blocks pairs).2 = pairs.countP fixedP := by
  induction pairs with
  | nil => intro blocks; rfl
  | cons p rest ih =>
    intro blocks
    obtain ⟨⟨⟨pr, psrc⟩, pold⟩, pnew⟩ := p
    unfold sp_items_update
    rw [List.countP_cons]
    split
    · rename_i hempty
      have : fixedP (((pr, psrc), pold), pnew) = false := by
        simp [fixedP, hempty]
      rw [ih blocks, this]
      simp
    · split
      · rename_i hempty hja
        have : fixedP (((pr, psrc), pold), pnew) = false := by
          simp [fixedP, hja]
        rw [ih blocks, this]
        simp
      · rename_i hempty hja
        have : fixedP (((pr, psrc), pold), pnew) = true := by
          simp only [fixedP, Bool.and_eq_true, Bool.not_eq_true']
          exact ⟨by simpa [List.isEmpty_iff] using hempty,
            by simpa using hja⟩
        dsimp only
        rw [ih (write_unit blocks pr pnew), this]
        simp

/-- C6.  In an escalation batch whose items address pairwise-distinct,
valid unit slots: an item whose new remote result is empty leaves its slot
exactly as it was before the batch update; an item whose new result still
contains a source-language character leaves its slot unchanged; any other
item's slot ends up holding exactly the new result; and the returned fixed
count is precisely the number of items of the third kind. -/
theorem c6_escalation_item_update (blocks : List Block)
    (pairs : List (((UnitRef × Str) × Str) × Str))
    (hnd : (pairs.map fun p => p.1.1.1).Nodup)
    (hvalid : ∀ p ∈ pairs, (read_unit blocks p.1.1.1).isSome) :
    (sp_items_update blocks pairs).2 = pairs.countP fixedP
    ∧ ∀ (idx : Nat) (h : idx < pairs.length),
        ((pairs[idx].2 = [] ∨ contains_japanese pairs[idx].2 = true) →
          read_unit (sp_items_update blocks pairs).1 pairs[idx].1.1.1
            = read_unit blocks pairs[idx].1.1.1)
        ∧ (pairs[idx].2 ≠ [] → contains_japanese pairs[idx].2 = false →
          read_unit (sp_items_update blocks pairs).1 pairs[idx].1.1.1
            = some pairs[idx].2) := by
  refine ⟨sp_items_update_count pairs blocks, ?_⟩
  induction pairs generalizing blocks with
  | nil => intro idx h; exact absurd h (by simp)
  | cons p rest ih =>
    intro idx h
    obtain ⟨⟨⟨pr, psrc⟩, pold⟩, pnew⟩ := p
    simp only [List.map_cons, List.nodup_cons] at hnd
    have hvrest : ∀ q ∈ rest, (read_unit blocks q.1.1.1).isSome :=
      fun q hq => hvalid q (List.mem_cons_of_mem _ hq)
    cases idx with
    | zero =>
      simp only [List.getElem_cons_zero]
      constructor
      · intro hcase
        unfold sp_items_update
        rcases hcase with hempty | hja
        · rw [if_pos hempty]
          exact sp_items_update_read_notin rest blocks pr hnd.1
        · by_cases hempty : pnew = []
          · rw [if_pos hempty]
            exact sp_items_update_read_notin rest blocks pr hnd.1
          · rw [if_neg hempty, if_pos hja]
            exact sp_items_update_read_notin rest blocks pr hnd.1
      · intro hempty hja
        unfold sp_items_update
        rw [if_neg hempty, if_neg (by simp [hja])]
        dsimp only
        rw [sp_items_update_read_notin rest (write_unit blocks pr pnew) pr hnd.1]
        exact read_unit_write_unit_same blocks pr pnew
          (hvalid _ (List.mem_cons_self _ _))
    | succ idx' =>
      have h' : idx' < rest.length := by simpa using h
      simp only [List.getElem_cons_succ]
      have hmem : rest[idx'] ∈ rest := List.getElem_mem h'
      have hrefne : pr ≠ rest[idx'].1.1.1 := by
        intro he
        exact hnd.1 (by rw [he]; exact List.mem_map_of_mem _ hmem)
      unfold sp_items_update
      split
      · exact ih blocks hnd.2 hvrest idx' h'
      · split
        · exact ih blocks hnd.2 hvrest idx' h'
        · dsimp only
          have hv2 : ∀ q ∈ rest,
              (read_unit (write_unit blocks pr pnew) q.1.1.1).isSome :=
            fun q hq => by
              rw [read_unit_write_unit_isSome]
              exact hvrest q hq
          have ihres := ih (write_unit blocks pr pnew) hnd.2 hv2 idx' h'
          refine ⟨?_, ihres.2⟩
          intro hcase
          rw [ihres.1 hcase,
            read_unit_write_unit_other blocks pr _ pnew hrefne]

/-! ## Batch reply parsing lemmas (C2) -/

theorem pad_loop_eq (pre : List Str) :
    ∀ (fuel : Nat) (tr : List Str), pre.length - tr.length ≤ fuel →
      pad_loop pre fuel tr = tr ++ pre.drop tr.length := by
  intro fuel
  induction fuel with
  | zero =>
    intro tr h
    have hnil : pre.drop tr.length = [] := List.drop_eq_nil_of_le (by omega)
    simp [pad_loop, hnil]
  | succ m ih =>
    intro tr h
    unfold pad_loop
    split
    · rename_i hlt
      rw [ih (tr ++ [pre.getD tr.length []]) (by simp; omega)]
      rw [List.getD_eq_getElem pre [] hlt]
      rw [List.drop_eq_getElem_cons hlt]
      simp
    · rename_i hge
      have hnil : pre.drop tr.length = [] := List.drop_eq_nil_of_le (by omega)
      simp [hnil]

theorem pad_translations_eq (pre tr : List Str) :
    pad_translations pre tr = tr ++ pre.drop tr.length :=
  pad_loop_eq pre pre.length tr (by omega)

theorem assemble_length (pre tr : List Str) :
    (assemble pre tr).length = pre.length := by
  simp [assemble, pad_translations_eq]
  omega

theorem assemble_of_le (pre tr : List Str) (h : tr.length ≤ pre.length) :
    assemble pre tr = tr ++ pre.drop tr.length := by
  unfold assemble
  rw [pad_translations_eq]
  apply List.take_of_length_le
  simp
  omega

theorem assemble_of_ge (pre tr : List Str) (h : pre.length ≤ tr.length) :
    assemble pre tr = tr.take pre.length := by
  unfold assemble
  rw [pad_translations_eq, List.drop_eq_nil_of_le h, List.append_nil]

theorem takeWhile_dropWhile_append (p : Char → Bool) (pref : Str) (x : Char)
    (suf : Str) (hpref : ∀ c ∈ pref, p c = true) (hx : p x = false) :
    (pref ++ x :: suf).takeWhile p = pref
    ∧ (pref ++ x :: suf).dropWhile p = x :: suf := by
  induction pref with
  | nil => simp [List.takeWhile_cons, List.dropWhile_cons, hx]
  | cons c rest ih =>
    have hc : p c = true := hpref c (List.mem_cons_self _ _)
    have hr := ih fun d hd => hpref d (List.mem_cons_of_mem _ hd)
    simp [List.takeWhile_cons, List.dropWhile_cons, hc, hr.1, hr.2]

theorem parseLine_verbatim_nodigit (line : Str)
    (h : line.takeWhile Char.isDigit = []) : parseLine line = line := by
  unfold parseLine
  simp [h]

theorem parseLine_numbered (ds : Str) (sep : Char) (rest : Str)
    (hds : ds ≠ []) (hall : ∀ c ∈ ds, c.isDigit = true)
    (hsep : sep = '.' ∨ sep = ')' ∨ sep = ':')
    (hrem : rest.dropWhile isSpace ≠ []) :
    parseLine (ds ++ sep :: rest) = rest.dropWhile isSpace := by
  have hsepd : sep.isDigit = false := by
    rcases hsep with h | h | h <;> subst h <;> decide
  have htd := takeWhile_dropWhile_append Char.isDigit ds sep rest hall hsepd
  unfold parseLine
  simp only [htd.1, htd.2]
  rw [if_neg hds, if_pos hsep, if_neg hrem]

/-- Every stripped reply line is either a numbered line — a non-empty digit
run, a separator `.`/`)`/`:`, optional whitespace and a non-empty remainder
— contributing exactly that remainder, or it is taken verbatim. -/
theorem parseLine_total (line : Str) :
    parseLine line = line
    ∨ ∃ ds sep rest2, line = ds ++ sep :: rest2 ∧ ds ≠ []
        ∧ (∀ c ∈ ds, c.isDigit = true) ∧ (sep = '.' ∨ sep = ')' ∨ sep = ':')
        ∧ rest2.dropWhile isSpace ≠ []
        ∧ parseLine line = rest2.dropWhile isSpace := by
  by_cases hds : line.takeWhile Char.isDigit = []
  · exact Or.inl (parseLine_verbatim_nodigit line hds)
  · have hall : ∀ c ∈ line.takeWhile Char.isDigit, c.isDigit = true :=
      fun c hc => List.mem_takeWhile_imp hc
    have hsplit := List.takeWhile_append_dropWhile Char.isDigit line
    cases hrest : line.dropWhile Char.isDigit with
    | nil =>
      left
      unfold parseLine
      rw [if_neg hds, hrest]
    | cons sep rest2 =>
      by_cases hsep : sep = '.' ∨ sep = ')' ∨ sep = ':'
      · by_cases hrem : rest2.dropWhile isSpace = []
        · left
          unfold parseLine
          rw [if_neg hds, hrest]
          dsimp only
          rw [if_pos hsep, if_pos hrem]
        · right
          refine ⟨line.takeWhile Char.isDigit, sep, rest2, ?_, hds, hall,
            hsep, hrem, ?_⟩
          · rw [hrest] at hsplit
            exact hsplit.symm
          · have hline : line = line.takeWhile Char.isDigit ++ sep :: rest2 := by
              rw [hrest] at hsplit
              exact hsplit.symm
            exact (congrArg parseLine hline).trans
              (parseLine_numbered _ sep rest2 hds hall hsep hrem)
      · left
        unfold parseLine
        rw [if_neg hds, hrest]
        dsimp only
        rw [if_neg hsep]

/-! ## `translate_batch` step lemmas -/

theorem translate_batch_return (cfg : TransConfig) (dict : List (Str × Str))
    (oracle : Nat → Option Str) (texts : List Str) (rc : Nat) (r : Str)
    (h1 : texts ≠ []) (h2 : oracle rc = some r) (h3 : r ≠ [])
    (h4 : ¬(cfg.retry_on_japanese = true ∧ rc < cfg.retry_attempts
        ∧ (assemble (texts.map (preprocess_text dict))
            (parse_reply r)).any contains_japanese = true)) :
    translate_batch cfg dict oracle texts rc
      = (assemble (texts.map (preprocess_text dict)) (parse_reply r), 1) := by
  rw [translate_batch, if_neg h1]
  simp only [h2]
  rw [if_neg h3, if_neg h4]

theorem translate_batch_retry (cfg : TransConfig) (dict : List (Str × Str))
    (oracle : Nat → Option Str) (texts : List Str) (rc : Nat) (r : Str)
    (h1 : texts ≠ []) (h2 : oracle rc = some r) (h3 : r ≠ [])
    (h4 : cfg.retry_on_japanese = true) (h5 : rc < cfg.retry_attempts)
    (h6 : (assemble (texts.map (preprocess_text dict))
        (parse_reply r)).any contains_japanese = true) :
    translate_batch cfg dict oracle texts rc
      = ((translate_batch cfg dict oracle texts (rc + 1)).1,
         (translate_batch cfg dict oracle texts (rc + 1)).2 + 1) := by
  rw [translate_batch, if_neg h1]
  simp only [h2]
  rw [if_neg h3, if_pos ⟨h4, h5, h6⟩]

theorem translate_batch_length_aux (cfg : TransConfig)
    (dict : List (Str × Str)) (oracle : Nat → Option Str) :
    ∀ (fuel rc : Nat), cfg.retry_attempts + 1 - rc ≤ fuel →
      ∀ texts : List Str,
        (translate_batch cfg dict oracle texts rc).1.length = texts.length := by
  intro fuel
  induction fuel with
  | zero =>
    intro rc h texts
    have hge : ¬ rc < cfg.retry_attempts := by omega
    by_cases ht : texts = []
    · rw [translate_batch, if_pos ht, ht]
    · rw [translate_batch, if_neg ht]
      cases ho : oracle rc with
      | none => simp [List.length_map]
      | some r =>
        by_cases hr : r = []
        · simp only [if_pos hr]
          simp [List.length_map]
        · simp only [if_neg hr]
          split
          · rename_i hcond
            exact absurd hcond.2.1 hge
          · simp [assemble_length, List.length_map]
  | succ m ih =>
    intro rc h texts
    by_cases ht : texts = []
    · rw [translate_batch, if_pos ht, ht]
    · rw [translate_batch, if_neg ht]
      cases ho : oracle rc with
      | none => simp [List.length_map]
      | some r =>
        by_cases hr : r = []
        · simp only [if_pos hr]
          simp [List.length_map]
        · simp only [if_neg hr]
          split
          · simpa using ih (rc + 1) (by omega) texts
          · simp [assemble_length, List.length_map]

/-- The result list of `translate_batch` always has exactly one entry per
submitted unit. -/
theorem translate_batch_length (cfg : TransConfig) (dict : List (Str × Str))
    (oracle : Nat → Option Str) (texts : List Str) (rc : Nat) :
    (translate_batch cfg dict oracle texts rc).1.length = texts.length :=
  translate_batch_length_aux cfg dict oracle (cfg.retry_attempts + 1 - rc) rc
    le_rfl texts

/-- C2.  Batch reply reassembly: the result list always has exactly one
entry per submitted unit; when fewer translations were recovered than units
submitted the tail is padded with the corresponding preprocessed source
texts; when more were recovered the list is truncated to the submitted
count; every stripped reply line either bears a `<digits><.|)|:>` prefix
with a non-empty remainder and contributes that remainder, or is taken
verbatim, in emission order (`parseLine_total` shape, applied linewise by
`parse_reply`); and concretely, 3 units answered with
`"1. Hello\n2. World\n3. Foo"` yield exactly `["Hello","World","Foo"]` in
one remote call, while a 2-line reply to 3 units yields
`["Hello","World"]` padded with the third unit's preprocessed source. -/
theorem c2_batch_reassembly :
    (∀ pre tr : List Str, (assemble pre tr).length = pre.length)
    ∧ (∀ pre tr : List Str, tr.length ≤ pre.length →
        assemble pre tr = tr ++ pre.drop tr.length)
    ∧ (∀ pre tr : List Str, pre.length ≤ tr.length →
        assemble pre tr = tr.take pre.length)
    ∧ (∀ line : Str, parseLine line = line
        ∨ ∃ ds sep rest2, line = ds ++ sep :: rest2 ∧ ds ≠ []
            ∧ (∀ c ∈ ds, c.isDigit = true)
            ∧ (sep = '.' ∨ sep = ')' ∨ sep = ':')
            ∧ rest2.dropWhile isSpace ≠ []
            ∧ parseLine line = rest2.dropWhile isSpace)
    ∧ translate_batch cfgD [] (fun _ => some "1. Hello\n2. World\n3. Foo".data)
        ["x".data, "y".data, "z".data] 0
        = (["Hello".data, "World".data, "Foo".data], 1)
    ∧ translate_batch cfgD [] (fun _ => some "1. Hello\n2. World".data)
        ["x".data, "y".data, "z".data] 0
        = (["Hello".data, "World".data, "z".data], 1) := by
  refine ⟨assemble_length, assemble_of_le, assemble_of_ge, parseLine_total,
    ?_, ?_⟩
  · rw [translate_batch_return cfgD []
      (fun _ => some "1. Hello\n2. World\n3. Foo".data)
      ["x".data, "y".data, "z".data] 0 "1. Hello\n2. World\n3. Foo".data
      (by decide) rfl (by decide) (by decide)]
    decide
  · rw [translate_batch_return cfgD []
      (fun _ => some "1. Hello\n2. World".data)
      ["x".data, "y".data, "z".data] 0 "1. Hello\n2. World".data
      (by decide) rfl (by decide) (by decide)]
    decide

/-- Witness for C2: the padding and truncation clauses applied at concrete
inputs. -/
theorem c2_batch_reassembly_witness :
    assemble ["a".data, "b".data] ["x".data]
      = ["x".data] ++ ["a".data, "b".data].drop 1
    ∧ assemble ["a".data] ["x".data, "y".data]
      = ["x".data, "y".data].take 1 :=
  ⟨c2_batch_reassembly.2.1 ["a".data, "b".data] ["x".data] (by decide),
   c2_batch_reassembly.2.2.1 ["a".data] ["x".data, "y".data] (by decide)⟩

/-! ## Collection lemmas (C3) -/

/-- Block position of a unit reference. -/
def refPos : UnitRef → Nat
  | .name i => i
  | .text i => i
  | .choice i _ => i

/-- Choice position of a unit reference (0 for non-choice units). -/
def choicePos : UnitRef → Nat
  | .choice _ j => j
  | _ => 0

theorem collect_name_items_shape (blocks : List Block) :
    ∀ (i : Nat) (p : UnitRef × Str), p ∈ collect_name_items i blocks →
      ∃ j, i ≤ j ∧ p.1 = UnitRef.name j := by
  induction blocks with
  | nil => intro i p h; simp [collect_name_items] at h
  | cons b rest ih =>
    intro i p h
    simp only [collect_name_items, List.mem_append] at h
    rcases h with h | h
    · split at h
      · simp only [List.mem_singleton] at h
        exact ⟨i, le_rfl, by rw [h]⟩
      · simp at h
    · obtain ⟨j, hij, hp⟩ := ih (i + 1) p h
      exact ⟨j, by omega, hp⟩

theorem collect_name_items_pairwise (blocks : List Block) :
    ∀ i : Nat, (collect_name_items i blocks).Pairwise
      (fun p q => refPos p.1 < refPos q.1) := by
  induction blocks with
  | nil => intro i; simp [collect_name_items]
  | cons b rest ih =>
    intro i
    simp only [collect_name_items]
    rw [List.pairwise_append]
    refine ⟨?_, ih (i + 1), ?_⟩
    · split <;> simp
    · intro p hp q hq
      split at hp
      · simp only [List.mem_singleton] at hp
        obtain ⟨j, hij, hq1⟩ := collect_name_items_shape rest (i + 1) q hq
        rw [hp, hq1]
        simp only [refPos]
        omega
      · simp at hp

theorem mem_collect_name_items (blocks : List Block) :
    ∀ (i j : Nat) (s : Str),
      (UnitRef.name j, s) ∈ collect_name_items i blocks ↔
        ∃ k, j = i + k ∧ ∃ b, blocks.get? k = some b ∧ b.enName = []
          ∧ b.jpName ≠ [] ∧ pyStrip b.jpName ≠ [] ∧ s = b.jpName := by
  induction blocks with
  | nil => intro i j s; simp [collect_name_items]
  | cons blk rest ih =>
    intro i j s
    simp only [collect_name_items, List.mem_append]
    constructor
    · intro h
      rcases h with h | h
      · split at h
        · rename_i hcond
          simp only [List.mem_singleton, Prod.mk.injEq, UnitRef.name.injEq] at h
          refine ⟨0, by omega, blk, rfl, hcond.1, hcond.2.1, hcond.2.2, h.2⟩
        · simp at h
      · obtain ⟨k, hk, b, hb, hrest⟩ := (ih (i + 1) j s).mp h
        exact ⟨k + 1, by omega, b, by simpa using hb, hrest⟩
    · rintro ⟨k, hk, b, hb, h1, h2, h3, h4⟩
      cases k with
      | zero =>
        left
        simp only [List.get?_cons_zero, Option.some.injEq] at hb
        subst hb
        rw [if_pos ⟨h1, h2, h3⟩]
        simp only [List.mem_singleton, Prod.mk.injEq, UnitRef.name.injEq]
        exact ⟨by omega, h4⟩
      | succ m =>
        right
        exact (ih (i + 1) j s).mpr ⟨m, by omega, b, by simpa using hb,
          h1, h2, h3, h4⟩

theorem collect_text_items_shape (blocks : List Block) :
    ∀ (i : Nat) (p : UnitRef × Str), p ∈ collect_text_items i blocks →
      ∃ j, i ≤ j ∧ p.1 = UnitRef.text j := by
  induction blocks with
  | nil => intro i p h; simp [collect_text_items] at h
  | cons b rest ih =>
    intro i p h
    simp only [collect_text_items, List.mem_append] at h
    rcases h with h | h
    · split at h
      · simp only [List.mem_singleton] at h
        exact ⟨i, le_rfl, by rw [h]⟩
      · simp at h
    · obtain ⟨j, hij, hp⟩ := ih (i + 1) p h
      exact ⟨j, by omega, hp⟩

theorem collect_text_items_pairwise (blocks : List Block) :
    ∀ i : Nat, (collect_text_items i blocks).Pairwise
      (fun p q => refPos p.1 < refPos q.1) := by
  induction blocks with
  | nil => intro i; simp [collect_text_items]
  | cons b rest ih =>
    intro i
    simp only [collect_text_items]
    rw [List.pairwise_append]
    refine ⟨?_, ih (i + 1), ?_⟩
    · split <;> simp
    · intro p hp q hq
      split at hp
      · simp only [List.mem_singleton] at hp
        obtain ⟨j, hij, hq1⟩ := collect_text_items_shape rest (i + 1) q hq
        rw [hp, hq1]
        simp only [refPos]
        omega
      · simp at hp

theorem mem_collect_text_items (blocks : List Block) :
    ∀ (i j : Nat) (s : Str),
      (UnitRef.text j, s) ∈ collect_text_items i blocks ↔
        ∃ k, j = i + k ∧ ∃ b, blocks.get? k = some b ∧ b.enText = []
          ∧ b.jpText ≠ [] ∧ s = b.jpText := by
  induction blocks with
  | nil => intro i j s; simp [collect_text_items]
  | cons blk rest ih =>
    intro i j s
    simp only [collect_text_items, List.mem_append]
    constructor
    · intro h
      rcases h with h | h
      · split at h
        · rename_i hcond
          simp only [List.mem_singleton, Prod.mk.injEq, UnitRef.text.injEq] at h
          refine ⟨0, by omega, blk, rfl, hcond.1, hcond.2, h.2⟩
        · simp at h
      · obtain ⟨k, hk, b, hb, hrest⟩ := (ih (i + 1) j s).mp h
        exact ⟨k + 1, by omega, b, by simpa using hb, hrest⟩
    · rintro ⟨k, hk, b, hb, h1, h2, h3⟩
      cases k with
      | zero =>
        left
        simp only [List.get?_cons_zero, Option.some.injEq] at hb
        subst hb
        rw [if_pos ⟨h1, h2⟩]
        simp only [List.mem_singleton, Prod.mk.injEq, UnitRef.text.injEq]
        exact ⟨by omega, h3⟩
      | succ m =>
        right
        exact (ih (i + 1) j s).mpr ⟨m, by omega, b, by simpa using hb, h1, h2, h3⟩

theorem collect_block_choices_shape (cs : List Choice) :
    ∀ (i jj : Nat) (p : UnitRef × Str), p ∈ collect_block_choices i jj cs →
      ∃ m, jj ≤ m ∧ p.1 = UnitRef.choice i m := by
  induction cs with
  | nil => intro i jj p h; simp [collect_block_choices] at h
  | cons c rest ih =>
    intro i jj p h
    simp only [collect_block_choices, List.mem_append] at h
    rcases h with h | h
    · split at h
      · simp only [List.mem_singleton] at h
        exact ⟨jj, le_rfl, by rw [h]⟩
      · simp at h
    · obtain ⟨m, hm, hp⟩ := ih i (jj + 1) p h
      exact ⟨m, by omega, hp⟩

theorem collect_block_choices_pairwise (cs : List Choice) :
    ∀ (i jj : Nat), (collect_block_choices i jj cs).Pairwise
      (fun p q => refPos p.1 = refPos q.1 ∧ choicePos p.1 < choicePos q.1) := by
  induction cs with
  | nil => intro i jj; simp [collect_block_choices]
  | cons c rest ih =>
    intro i jj
    simp only [collect_block_choices]
    rw [List.pairwise_append]
    refine ⟨?_, ih i (jj + 1), ?_⟩
    · split <;> simp
    · intro p hp q hq
      split at hp
      · simp only [List.mem_singleton] at hp
        obtain ⟨m, hm, hq1⟩ := collect_block_choices_shape rest i (jj + 1) q hq
        rw [hp, hq1]
        refine ⟨rfl, ?_⟩
        simp only [choicePos]
        omega
      · simp at hp

theorem mem_collect_block_choices (cs : List Choice) :
    ∀ (i jj l : Nat) (s : Str),
      (UnitRef.choice i l, s) ∈ collect_block_choices i jj cs ↔
        ∃ m, l = jj + m ∧ ∃ c, cs.get? m = some c ∧ c.enText = []
          ∧ c.jpText ≠ [] ∧ s = c.jpText := by
  induction cs with
  | nil => intro i jj l s; simp [collect_block_choices]
  | cons ch rest ih =>
    intro i jj l s
    simp only [collect_block_choices, List.mem_append]
    constructor
    · intro h
      rcases h with h | h
      · split at h
        · rename_i hcond
          simp only [List.mem_singleton, Prod.mk.injEq,
            UnitRef.choice.injEq] at h
          refine ⟨0, by omega, ch, rfl, hcond.1, hcond.2, h.2⟩
        · simp at h
      · obtain ⟨m, hm, c, hc, hrest⟩ := (ih i (jj + 1) l s).mp h
        exact ⟨m + 1, by omega, c, by simpa using hc, hrest⟩
    · rintro ⟨m, hm, c, hc, h1, h2, h3⟩
      cases m with
      | zero =>
        left
        simp only [List.get?_cons_zero, Option.some.injEq] at hc
        subst hc
        rw [if_pos ⟨h1, h2⟩]
        simp only [List.mem_singleton, Prod.mk.injEq, UnitRef.choice.injEq]
        exact ⟨⟨trivial, by omega⟩, h3⟩
      | succ m' =>
        right
        exact (ih i (jj + 1) l s).mpr ⟨m', by omega, c, by simpa using hc,
          h1, h2, h3⟩

theorem collect_choice_items_shape (blocks : List Block) :
    ∀ (i : Nat) (p : UnitRef × Str), p ∈ collect_choice_items i blocks →
      ∃ j m, i ≤ j ∧ p.1 = UnitRef.choice j m := by
  induction blocks with
  | nil => intro i p h; simp [collect_choice_items] at h
  | cons b rest ih =>
    intro i p h
    simp only [collect_choice_items, List.mem_append] at h
    rcases h with h | h
    · obtain ⟨m, _, hp⟩ := collect_block_choices_shape b.choices i 0 p h
      exact ⟨i, m, le_rfl, hp⟩
    · obtain ⟨j, m, hij, hp⟩ := ih (i + 1) p h
      exact ⟨j, m, by omega, hp⟩

theorem collect_choice_items_pairwise (blocks : List Block) :
    ∀ i : Nat, (collect_choice_items i blocks).Pairwise
      (fun p q => refPos p.1 < refPos q.1
        ∨ (refPos p.1 = refPos q.1 ∧ choicePos p.1 < choicePos q.1)) := by
  induction blocks with
  | nil => intro i; simp [collect_choice_items]
  | cons b rest ih =>
    intro i
    simp only [collect_choice_items]
    rw [List.pairwise_append]
    refine ⟨(collect_block_choices_pairwise b.choices i 0).imp
      (fun h => Or.inr h), ih (i + 1), ?_⟩
    intro p hp q hq
    obtain ⟨m, _, hp1⟩ := collect_block_choices_shape b.choices i 0 p hp
    obtain ⟨j, m', hij, hq1⟩ := collect_choice_items_shape rest (i + 1) q hq
    left
    rw [hp1, hq1]
    simp only [refPos]
    omega

theorem mem_collect_choice_items (blocks : List Block) :
    ∀ (i j l : Nat) (s : Str),
      (UnitRef.choice j l, s) ∈ collect_choice_items i blocks ↔
        ∃ k, j = i + k ∧ ∃ b, blocks.get? k = some b
          ∧ ∃ c, b.choices.get? l = some c ∧ c.enText = []
            ∧ c.jpText ≠ [] ∧ s = c.jpText := by
  induction blocks with
  | nil => intro i j l s; simp [collect_choice_items]
  | cons blk rest ih =>
    intro i j l s
    simp only [collect_choice_items, List.mem_append]
    constructor
    · intro h
      rcases h with h | h
      · obtain ⟨m, _, hp⟩ :=
          collect_block_choices_shape blk.choices i 0 (UnitRef.choice j l, s) h
        simp only [UnitRef.choice.injEq] at hp
        obtain ⟨hji, hlm⟩ := hp
        subst hji
        obtain ⟨m', hm', c, hc, hcs⟩ :=
          (mem_collect_block_choices blk.choices j 0 l s).mp h
        refine ⟨0, by omega, blk, rfl, c, ?_, hcs⟩
        have : m' = l := by omega
        rw [← this]
        exact hc
      · obtain ⟨k, hk, b, hb, hcs⟩ := (ih (i + 1) j l s).mp h
        exact ⟨k + 1, by omega, b, by simpa using hb, hcs⟩
    · rintro ⟨k, hk, b, hb, c, hc, h1, h2, h3⟩
      cases k with
      | zero =>
        left
        simp only [List.get?_cons_zero, Option.some.injEq] at hb
        subst hb
        have hji : j = i := by omega
        subst hji
        exact (mem_collect_block_choices blk.choices j 0 l s).mpr
          ⟨l, by omega, c, hc, h1, h2, h3⟩
      | succ m =>
        right
        exact (ih (i + 1) j l s).mpr ⟨m, by omega, b, by simpa using hb,
          c, hc, h1, h2, h3⟩

/-- A block whose text unit has whitespace-only (but non-empty) source. -/
def blockW : Block :=
  { jpName := [], enName := [], jpText := " ".data, enText := [], choices := [] }

/-- C3 counterexample: a text unit whose source is a single space — empty
after stripping — is nevertheless collected by the batched translator (the
whitespace test `jp_name.strip()` exists only for name units), so the
claim's "skipping every unit whose source text is empty or only whitespace
(for name, text, and choice units alike)" is false on the code. -/
theorem c3_collection_counterexample :
    collect_all_items [blockW] = [(UnitRef.text 0, " ".data)]
    ∧ pyStrip " ".data = [] ∧ " ".data ≠ [] := by
  refine ⟨?_, by decide, by decide⟩
  decide

/-- C3 (amended).  The batched translator collects exactly: the name units
with empty target and non-whitespace source, the text units with empty
target and non-empty source (whitespace-only source included), and the
choice units with empty target and non-empty source (whitespace-only
included); the collected list is the name units, then the text units, then
the choice units, with strictly increasing block position inside the name
and text groups and lexicographically increasing (block, choice) position
inside the choice group. -/
theorem c3_collection_order (blocks : List Block) :
    collect_all_items blocks
      = collect_name_items 0 blocks ++ collect_text_items 0 blocks
        ++ collect_choice_items 0 blocks
    ∧ (∀ (j : Nat) (s : Str),
        (UnitRef.name j, s) ∈ collect_all_items blocks ↔
          ∃ b, blocks.get? j = some b ∧ b.enName = [] ∧ b.jpName ≠ []
            ∧ pyStrip b.jpName ≠ [] ∧ s = b.jpName)
    ∧ (∀ (j : Nat) (s : Str),
        (UnitRef.text j, s) ∈ collect_all_items blocks ↔
          ∃ b, blocks.get? j = some b ∧ b.enText = [] ∧ b.jpText ≠ []
            ∧ s = b.jpText)
    ∧ (∀ (j l : Nat) (s : Str),
        (UnitRef.choice j l, s) ∈ collect_all_items blocks ↔
          ∃ b, blocks.get? j = some b ∧ ∃ c, b.choices.get? l = some c
            ∧ c.enText = [] ∧ c.jpText ≠ [] ∧ s = c.jpText)
    ∧ (collect_name_items 0 blocks).Pairwise
        (fun p q => refPos p.1 < refPos q.1)
    ∧ (collect_text_items 0 blocks).Pairwise
        (fun p q => refPos p.1 < refPos q.1)
    ∧ (collect_choice_items 0 blocks).Pairwise
        (fun p q => refPos p.1 < refPos q.1
          ∨ (refPos p.1 = refPos q.1 ∧ choicePos p.1 < choicePos q.1)) := by
  refine ⟨rfl, ?_, ?_, ?_, collect_name_items_pairwise blocks 0,
    collect_text_items_pairwise blocks 0, collect_choice_items_pairwise blocks 0⟩
  · intro j s
    constructor
    · intro h
      simp only [collect_all_items, List.mem_append] at h
      rcases h with (h | h) | h
      · obtain ⟨k, hk, b, hb, h1, h2, h3, h4⟩ :=
          (mem_collect_name_items blocks 0 j s).mp h
        have : k = j := by omega
        subst this
        exact ⟨b, hb, h1, h2, h3, h4⟩
      · obtain ⟨j', _, hshape⟩ := collect_text_items_shape blocks 0 _ h
        simp at hshape
      · obtain ⟨j', m', _, hshape⟩ := collect_choice_items_shape blocks 0 _ h
        simp at hshape
    · rintro ⟨b, hb, h1, h2, h3, h4⟩
      simp only [collect_all_items, List.mem_append]
      exact Or.inl (Or.inl ((mem_collect_name_items blocks 0 j s).mpr
        ⟨j, by omega, b, hb, h1, h2, h3, h4⟩))
  · intro j s
    constructor
    · intro h
      simp only [collect_all_items, List.mem_append] at h
      rcases h with (h | h) | h
      · obtain ⟨j', _, hshape⟩ := collect_name_items_shape blocks 0 _ h
        simp at hshape
      · obtain ⟨k, hk, b, hb, h1, h2, h3⟩ :=
          (mem_collect_text_items blocks 0 j s).mp h
        have : k = j := by omega
        subst this
        exact ⟨b, hb, h1, h2, h3⟩
      · obtain ⟨j', m', _, hshape⟩ := collect_choice_items_shape blocks 0 _ h
        simp at hshape
    · rintro ⟨b, hb, h1, h2, h3⟩
      simp only [collect_all_items, List.mem_append]
      exact Or.inl (Or.inr ((mem_collect_text_items blocks 0 j s).mpr
        ⟨j, by omega, b, hb, h1, h2, h3⟩))
  · intro j l s
    constructor
    · intro h
      simp only [collect_all_items, List.mem_append] at h
      rcases h with (h | h) | h
      · obtain ⟨j', _, hshape⟩ := collect_name_items_shape blocks 0 _ h
        simp at hshape
      · obtain ⟨j', _, hshape⟩ := collect_text_items_shape blocks 0 _ h
        simp at hshape
      · obtain ⟨k, hk, b, hb, c, hc, h1, h2, h3⟩ :=
          (mem_collect_choice_items blocks 0 j l s).mp h
        have : k = j := by omega
        subst this
        exact ⟨b, hb, c, hc, h1, h2, h3⟩
    · rintro ⟨b, hb, c, hc, h1, h2, h3⟩
      simp only [collect_all_items, List.mem_append]
      exact Or.inr ((mem_collect_choice_items blocks 0 j l s).mpr
        ⟨j, by omega, b, hb, c, hc, h1, h2, h3⟩)

/-- Witness for C3: the characterization applied to a concrete record set —
the whitespace-source text unit of `blockW` is collected. -/
theorem c3_collection_order_witness :
    (UnitRef.text 0, " ".data) ∈ collect_all_items [blockW] :=
  ((c3_collection_order [blockW]).2.2.1 0 " ".data).mpr
    ⟨blockW, rfl, rfl, by decide, rfl⟩

/-- Record set and escalation batch for the C6 witness. -/
def blocksC6 : List Block :=
  [{ jpName := "n0".data, enName := [], jpText := "t0".data,
     enText := "old0".data, choices := [] },
   { jpName := "n1".data, enName := "E1".data, jpText := "t1".data,
     enText := "old1".data, choices := [] }]

def pairsC6 : List (((UnitRef × Str) × Str) × Str) :=
  [(((UnitRef.text 0, "s0".data), "o0".data), []),
   (((UnitRef.name 1, "s1".data), "o1".data), "New".data)]

/-- Witness for C6: an empty new result keeps the slot, a valid new result
overwrites it, and exactly one item is counted as fixed. -/
theorem c6_escalation_item_update_witness :
    read_unit (sp_items_update blocksC6 pairsC6).1 (UnitRef.text 0)
      = read_unit blocksC6 (UnitRef.text 0)
    ∧ read_unit (sp_items_update blocksC6 pairsC6).1 (UnitRef.name 1)
      = some "New".data
    ∧ (sp_items_update blocksC6 pairsC6).2 = 1 := by
  have h := c6_escalation_item_update blocksC6 pairsC6 (by decide)
    (by decide)
  exact ⟨(h.2 0 (by decide)).1 (Or.inl rfl),
    (h.2 1 (by decide)).2 (by decide) (by decide), h.1.trans (by decide)⟩

/-! ## Name-unit dictionary shortcut (C9) -/

/-- A dictionary whose replacements cancel out on the text "a": the key
"a" occurs in the text, yet preprocessing returns the text unchanged
("a" → "b" → "a"). -/
def dictC9 : List (Str × Str) := [("a".data, "b".data), ("b".data, "a".data)]

/-- C9 counterexample: for the name "a" under `dictC9`, a dictionary key
occurs in the source text, preprocessing leaves it unchanged, and
`translate_text` therefore performs one remote call (and returns the
remote's answer) — refuting both the parenthetical "at least one dictionary
key occurs in it" as the meaning of "changes the source text" and the
claim that a name unit is sent to the remote service only when no
dictionary term applies to it. -/
theorem c9_name_shortcut_counterexample :
    ("a".data, "b".data) ∈ dictC9
    ∧ preprocess_text dictC9 "a".data = "a".data
    ∧ (translate_text cfgD dictC9 (fun _ => some "Ah".data) "a".data true 0).2
        = 1
    ∧ (translate_text cfgD dictC9 (fun _ => some "Ah".data) "a".data true 0).1
        = "Ah".data := by
  refine ⟨by decide, by decide, ?_, ?_⟩
  · rw [translate_text]
    decide
  · rw [translate_text]
    decide

/-- C9 (amended).  With `is_name` true: when dictionary preprocessing
actually alters the source text, `translate_text` returns the preprocessed
text with zero remote calls; when preprocessing leaves the text unchanged —
which can happen even though a dictionary key occurs in it (see the
counterexample) — at least one remote call is made. -/
theorem c9_name_dictionary_shortcut (cfg : TransConfig)
    (dict : List (Str × Str)) (oracle : Nat → Option Str) (text : Str)
    (rc : Nat) :
    (preprocess_text dict text ≠ text →
      translate_text cfg dict oracle text true rc
        = (preprocess_text dict text, 0))
    ∧ (preprocess_text dict text = text →
      1 ≤ (translate_text cfg dict oracle text true rc).2) := by
  constructor
  · intro h
    rw [translate_text, if_pos ⟨rfl, h⟩]
  · intro h
    rw [translate_text, if_neg (fun hc => hc.2 h)]
    cases ho : oracle rc with
    | none => simp
    | some t =>
      by_cases ht : t = []
      · simp only [if_pos ht]
        simp
      · simp only [if_neg ht]
        split
        · dsimp only
          omega
        · simp

/-- Witness for C9 at concrete inputs: a changed name short-circuits with
zero calls; an unchanged name makes a remote call. -/
theorem c9_name_dictionary_shortcut_witness :
    translate_text cfgD [("X".data, "Y".data)] (fun _ => none) "aXb".data
      true 0
      = (preprocess_text [("X".data, "Y".data)] "aXb".data, 0)
    ∧ 1 ≤ (translate_text cfgD [] (fun _ => none) "a".data true 0).2 :=
  ⟨(c9_name_dictionary_shortcut cfgD [("X".data, "Y".data)] (fun _ => none)
      "aXb".data 0).1 (by decide),
   (c9_name_dictionary_shortcut cfgD [] (fun _ => none) "a".data 0).2
      (by decide)⟩

/-! ## Idempotent run (C1) -/

theorem clean_block_id (b : Block)
    (h1 : asciiLower b.enName ≠ "monologue".data)
    (h2 : (b.jpText = [] ∨ pyStrip b.jpText = []) →
      asciiLower b.enText ≠ "monologue".data) :
    clean_block b = b := by
  unfold clean_block
  rw [if_neg h1]
  dsimp only
  rw [if_neg (fun hc => h2 hc.1 hc.2)]

/-- C1 (amended).  On a record set in which no unit is eligible for
collection (every target slot of a collectible unit is already populated),
the batched pipeline performs zero `call_llm` invocations and leaves the
llm state untouched; and provided additionally that no block carries the
cleanup sentinel — no `enName` equals "monologue" case-insensitively, and
no block whose `jpText` is empty or whitespace has `enText` equal to
"monologue" case-insensitively — the whole run, post-processing cleanup
included, returns the record set unchanged. -/
theorem c1_idempotent_run (cfg : TransConfig) (dict : List (Str × Str))
    (oracle : Nat → Nat → Option Str) (tb : Nat → Except Unit (List Str))
    (st : LLMState) (blocks : List Block)
    (hempty : collect_all_items blocks = [])
    (hname : ∀ b ∈ blocks, asciiLower b.enName ≠ "monologue".data)
    (htext : ∀ b ∈ blocks, (b.jpText = [] ∨ pyStrip b.jpText = []) →
      asciiLower b.enText ≠ "monologue".data) :
    translate_json_file_model cfg dict oracle tb st blocks
      = (blocks, st, 0) := by
  unfold translate_json_file_model translate_json_batched
  simp only [hempty]
  rw [if_pos trivial]
  have hclean : clean_monologue_names blocks = blocks := by
    unfold clean_monologue_names
    exact (List.map_congr_left fun b hb =>
      clean_block_id b (hname b hb) (htext b hb)).trans (List.map_id blocks)
  rw [hclean]

/-- A fully populated record set carrying the cleanup sentinel in a target
name. -/
def blocksC1 : List Block :=
  [{ jpName := "A".data, enName := "Monologue".data, jpText := "B".data,
     enText := "C".data, choices := [] }]

/-- C1 counterexample: every target field of `blocksC1` is populated (no
unit is collected, and indeed zero remote calls are made), yet the run does
not leave the record set unchanged — the post-processing cleanup pass
blanks the `enName` equal to the sentinel "Monologue".  The claim's "leaves
every Block and Choice unchanged (zero mutations), including through the
post-processing cleanup pass" is therefore false on the code. -/
theorem c1_idempotent_run_counterexample :
    collect_all_items blocksC1 = []
    ∧ (translate_json_file_model cfgD [] (fun _ _ => none)
        (fun _ => Except.error ()) stD blocksC1).2.2 = 0
    ∧ (translate_json_file_model cfgD [] (fun _ _ => none)
        (fun _ => Except.error ()) stD blocksC1).1 ≠ blocksC1 := by
  refine ⟨by decide, by decide, by decide⟩

/-- A fully populated, sentinel-free record set for the C1 witness. -/
def blocksC1W : List Block :=
  [{ jpName := "A".data, enName := "Al".data, jpText := "B".data,
     enText := "Bee".data,
     choices := [{ jpText := "x".data, enText := "Ex".data }] }]

/-- Witness for C1: the sentinel-free populated record set passes through
the whole pipeline with zero calls and zero mutations. -/
theorem c1_idempotent_run_witness :
    translate_json_file_model cfgD [] (fun _ _ => none)
      (fun _ => Except.error ()) stD blocksC1W = (blocksC1W, stD, 0) :=
  c1_idempotent_run cfgD [] (fun _ _ => none) (fun _ => Except.error ())
    stD blocksC1W (by decide) (by decide) (by decide)

/-! ## Batch validation retry and write-once trace (C10) -/

theorem process_batch_items_writes :
    ∀ (pairs : List ((UnitRef × Str) × Str)) (blocks : List Block),
      (process_batch_items blocks pairs).2.1
        = pairs.map fun p => (p.1.1, p.2) := by
  intro pairs
  induction pairs with
  | nil => intro blocks; rfl
  | cons p rest ih =>
    intro blocks
    obtain ⟨⟨r, src⟩, t⟩ := p
    simp only [process_batch_items, List.map_cons]
    rw [ih]

theorem run_batches_writes (cfg : TransConfig) (dict : List (Str × Str))
    (oracle : Nat → Nat → Option Str) :
    ∀ (batches : List (List (UnitRef × Str))) (blocks : List Block) (k : Nat),
      ((run_batches cfg dict oracle blocks batches k).2.1).map Prod.fst
        = batches.flatten.map Prod.fst := by
  intro batches
  induction batches with
  | nil => intro blocks k; rfl
  | cons batch rest ih =>
    intro blocks k
    simp only [run_batches]
    rw [List.map_append, ih, process_batch_items_writes, List.flatten_cons,
      List.map_append]
    congr 1
    have hlen : batch.length
        ≤ (translate_batch cfg dict (oracle k) (batch.map Prod.snd) 0).1.length := by
      rw [translate_batch_length]
      simp
    have h2 : (batch.zip
        (translate_batch cfg dict (oracle k) (batch.map Prod.snd) 0).1).map
          Prod.fst = batch :=
      List.map_fst_zip _ _ hlen
    calc ((batch.zip
            (translate_batch cfg dict (oracle k) (batch.map Prod.snd) 0).1).map
              fun p => (p.1.1, p.2)).map Prod.fst
        = ((batch.zip
            (translate_batch cfg dict (oracle k) (batch.map Prod.snd) 0).1).map
              Prod.fst).map Prod.fst := by
          rw [List.map_map, List.map_map]
          rfl
      _ = batch.map Prod.fst := by rw [h2]

theorem chunksAux_flatten {α : Type} (n : Nat) (hn : n ≠ 0) :
    ∀ (fuel : Nat) (l : List α), l.length ≤ fuel →
      (chunksAux n fuel l).flatten = l := by
  intro fuel
  induction fuel with
  | zero =>
    intro l h
    have : l = [] := List.length_eq_zero.mp (by omega)
    subst this
    rfl
  | succ m ih =>
    intro l h
    cases l with
    | nil => rfl
    | cons a rest =>
      simp only [chunksAux]
      rw [if_neg hn, List.flatten_cons]
      rw [ih ((a :: rest).drop n) ?_]
      · exact List.take_append_drop n (a :: rest)
      · simp only [List.length_drop, List.length_cons]
        simp only [List.length_cons] at h
        omega

theorem chunks_flatten {α : Type} (n : Nat) (hn : n ≠ 0) (l : List α) :
    (chunks n l).flatten = l :=
  chunksAux_flatten n hn l.length l le_rfl

theorem collect_all_items_refs_nodup (blocks : List Block) :
    ((collect_all_items blocks).map Prod.fst).Nodup := by
  have hA : (List.map Prod.fst (collect_name_items 0 blocks)).Pairwise
      (fun x y => x ≠ y) :=
    List.Pairwise.map Prod.fst
      (fun a b h heq => by rw [heq] at h; exact lt_irrefl _ h)
      (collect_name_items_pairwise blocks 0)
  have hB : (List.map Prod.fst (collect_text_items 0 blocks)).Pairwise
      (fun x y => x ≠ y) :=
    List.Pairwise.map Prod.fst
      (fun a b h heq => by rw [heq] at h; exact lt_irrefl _ h)
      (collect_text_items_pairwise blocks 0)
  have hC : (List.map Prod.fst (collect_choice_items 0 blocks)).Pairwise
      (fun x y => x ≠ y) :=
    List.Pairwise.map Prod.fst
      (fun a b h heq => by
        rw [heq] at h
        rcases h with h | h
        · exact lt_irrefl _ h
        · exact lt_irrefl _ h.2)
      (collect_choice_items_pairwise blocks 0)
  have hAB : (List.map Prod.fst (collect_name_items 0 blocks)).Disjoint
      (List.map Prod.fst (collect_text_items 0 blocks)) := by
    intro r hr1 hr2
    obtain ⟨p, hp, hp1⟩ := List.mem_map.mp hr1
    obtain ⟨q, hq, hq1⟩ := List.mem_map.mp hr2
    obtain ⟨j1, _, hs1⟩ := collect_name_items_shape blocks 0 p hp
    obtain ⟨j2, _, hs2⟩ := collect_text_items_shape blocks 0 q hq
    have h1 : r = UnitRef.name j1 := by rw [← hp1, hs1]
    have h2 : r = UnitRef.text j2 := by rw [← hq1, hs2]
    rw [h1] at h2
    exact UnitRef.noConfusion h2
  have hBC : (List.map Prod.fst (collect_text_items 0 blocks)).Disjoint
      (List.map Prod.fst (collect_choice_items 0 blocks)) := by
    intro r hr1 hr2
    obtain ⟨p, hp, hp1⟩ := List.mem_map.mp hr1
    obtain ⟨q, hq, hq1⟩ := List.mem_map.mp hr2
    obtain ⟨j1, _, hs1⟩ := collect_text_items_shape blocks 0 p hp
    obtain ⟨j2, m2, _, hs2⟩ := collect_choice_items_shape blocks 0 q hq
    have h1 : r = UnitRef.text j1 := by rw [← hp1, hs1]
    have h2 : r = UnitRef.choice j2 m2 := by rw [← hq1, hs2]
    rw [h1] at h2
    exact UnitRef.noConfusion h2
  have hAC : (List.map Prod.fst (collect_name_items 0 blocks)).Disjoint
      (List.map Prod.fst (collect_choice_items 0 blocks)) := by
    intro r hr1 hr2
    obtain ⟨p, hp, hp1⟩ := List.mem_map.mp hr1
    obtain ⟨q, hq, hq1⟩ := List.mem_map.mp hr2
    obtain ⟨j1, _, hs1⟩ := collect_name_items_shape blocks 0 p hp
    obtain ⟨j2, m2, _, hs2⟩ := collect_choice_items_shape blocks 0 q hq
    have h1 : r = UnitRef.name j1 := by rw [← hp1, hs1]
    have h2 : r = UnitRef.choice j2 m2 := by rw [← hq1, hs2]
    rw [h1] at h2
    exact UnitRef.noConfusion h2
  have hABC : (List.map Prod.fst (collect_name_items 0 blocks)
      ++ List.map Prod.fst (collect_text_items 0 blocks)).Disjoint
      (List.map Prod.fst (collect_choice_items 0 blocks)) := by
    intro r hr1 hr2
    rw [List.mem_append] at hr1
    rcases hr1 with hr1 | hr1
    · exact hAC hr1 hr2
    · exact hBC hr1 hr2
  unfold collect_all_items
  simp only [List.map_append]
  rw [List.nodup_append, List.nodup_append]
  exact ⟨⟨hA, hB, hAB⟩, hC, hABC⟩

/-- C10.  (i) When the parsed-and-assembled reply of a batch contains a
translation with a source-language character and the validation-retry bound
is not exhausted, `translate_batch` re-submits the whole batch: its result
is exactly the result of the next attempt (every translation of the current
reply, valid ones included, is discarded) at the cost of one extra
`call_llm` invocation, recursing only while `retry_count < retry_attempts`.
(ii) The write trace of the batched pass covers exactly the collected
units, in collection order, and the collected unit references are pairwise
distinct — so each unit's target-text slot is written exactly once, from
the value returned after the retry loop. -/
theorem c10_batch_retry_write_once :
    (∀ (cfg : TransConfig) (dict : List (Str × Str))
        (oracle : Nat → Option Str) (texts : List Str) (rc : Nat) (r : Str),
        texts ≠ [] → oracle rc = some r → r ≠ [] →
        cfg.retry_on_japanese = true → rc < cfg.retry_attempts →
        (assemble (texts.map (preprocess_text dict)) (parse_reply r)).any
            contains_japanese = true →
        translate_batch cfg dict oracle texts rc
          = ((translate_batch cfg dict oracle texts (rc + 1)).1,
             (translate_batch cfg dict oracle texts (rc + 1)).2 + 1))
    ∧ (∀ (cfg : TransConfig) (dict : List (Str × Str))
        (oracle : Nat → Nat → Option Str) (tb : Nat → Except Unit (List Str))
        (st : LLMState) (blocks : List Block),
        cfg.batch_size ≠ 0 →
        ((translate_json_batched cfg dict oracle tb st blocks).2.2.1).map
            Prod.fst
          = (collect_all_items blocks).map Prod.fst)
    ∧ (∀ blocks : List Block,
        ((collect_all_items blocks).map Prod.fst).Nodup) := by
  refine ⟨translate_batch_retry, ?_, collect_all_items_refs_nodup⟩
  intro cfg dict oracle tb st blocks hbs
  unfold translate_json_batched
  by_cases hi : collect_all_items blocks = []
  · rw [if_pos hi, hi]
  · rw [if_neg hi]
    dsimp only
    split
    · dsimp only
      rw [run_batches_writes, chunks_flatten cfg.batch_size hbs]
    · dsimp only
      rw [run_batches_writes, chunks_flatten cfg.batch_size hbs]

/-- Japanese-then-clean oracle for the C10 witness. -/
def oracleC10 : Nat → Option Str :=
  fun k => if k = 0 then some "1. あ".data else some "1. Ok".data

/-- Witness for C10: a reply whose only translation contains Hiragana
forces a full resubmission — the first attempt's result is discarded and
the batch result equals the second attempt's result with one extra call;
and the write trace of a one-unit record set is that unit, exactly once. -/
theorem c10_batch_retry_write_once_witness :
    translate_batch cfgD [] oracleC10 ["x".data] 0
      = ((translate_batch cfgD [] oracleC10 ["x".data] 1).1,
         (translate_batch cfgD [] oracleC10 ["x".data] 1).2 + 1)
    ∧ ((translate_json_batched cfgD [] (fun _ _ => none)
        (fun _ => Except.error ()) stD [blockW]).2.2.1).map Prod.fst
        = (collect_all_items [blockW]).map Prod.fst
    ∧ ((collect_all_items [blockW]).map Prod.fst).Nodup :=
  ⟨c10_batch_retry_write_once.1 cfgD [] oracleC10 ["x".data] 0 "1. あ".data
      (by decide) rfl (by decide) rfl (by decide) (by decide),
   c10_batch_retry_write_once.2.1 cfgD [] (fun _ _ => none)
      (fun _ => Except.error ()) stD [blockW] (by decide),
   c10_batch_retry_write_once.2.2 [blockW]⟩

/-! ## Concurrency lemmas (C8) -/

theorem jobStep_done (j : Job) (h : j.done = true) : jobStep j = j := by
  unfold jobStep
  rw [if_pos h]

theorem jobIter_done (j : Job) (h : j.done = true) :
    ∀ n : Nat, jobIter n j = j := by
  intro n
  induction n with
  | zero => rfl
  | succ m ih =>
    show jobIter m (jobStep j) = j
    rw [jobStep_done j h, ih]

theorem jobIter_add (a b : Nat) :
    ∀ j : Job, jobIter (a + b) j = jobIter b (jobIter a j) := by
  induction a with
  | zero =>
    intro j
    rw [Nat.zero_add]
    rfl
  | succ m ih =>
    intro j
    have hn : m + 1 + b = (m + b) + 1 := by omega
    rw [hn]
    show jobIter (m + b) (jobStep j) = jobIter b (jobIter (m + 1) j)
    rw [ih (jobStep j)]
    rfl

/-- Running a not-yet-done job for one step per pending batch plus a
finishing step reaches exactly the sequential outcome: the batch loop
(`run_batches`) over its pending batches followed by escalation and
cleanup (`finishFile`), with `done` set. -/
theorem jobIter_run :
    ∀ (pending : List (List (UnitRef × Str))) (j : Job),
      j.done = false → j.pending = pending →
      jobIter (pending.length + 1) j
        = { j with
            blocks := (finishFile j.cfg j.st j.tb
              (run_batches j.cfg j.dict j.oracle j.blocks pending j.k).1
              (j.failed
                ++ (run_batches j.cfg j.dict j.oracle j.blocks pending
                      j.k).2.2.1)).1,
            st := (finishFile j.cfg j.st j.tb
              (run_batches j.cfg j.dict j.oracle j.blocks pending j.k).1
              (j.failed
                ++ (run_batches j.cfg j.dict j.oracle j.blocks pending
                      j.k).2.2.1)).2,
            pending := [],
            k := j.k + pending.length,
            failed := j.failed
              ++ (run_batches j.cfg j.dict j.oracle j.blocks pending
                    j.k).2.2.1,
            done := true } := by
  intro pending
  induction pending with
  | nil =>
    intro j hdone hp
    obtain ⟨cfg, dict, oracle, tb, blocks, st, pending', k, failed, done⟩ := j
    simp only at hdone hp
    subst hdone
    subst hp
    show jobIter 0 (jobStep _) = _
    simp only [jobIter]
    unfold jobStep
    simp only [run_batches, if_neg Bool.false_ne_true, List.append_nil]
    rfl
  | cons batch rest ih =>
    intro j hdone hp
    obtain ⟨cfg, dict, oracle, tb, blocks, st, pending', k, failed, done⟩ := j
    simp only at hdone hp
    subst hdone
    subst hp
    show jobIter (rest.length + 1) (jobStep _) = _
    unfold jobStep
    simp only [if_neg Bool.false_ne_true]
    rw [ih _ rfl rfl]
    simp only [run_batches, List.append_assoc]
    have hk : k + 1 + rest.length = k + (rest.length + 1) := by omega
    rw [hk]
    rfl

theorem runPair_eq :
    ∀ (sched : List Bool) (p : Job × Job),
      runPair sched p
        = (jobIter (sched.count false) p.1, jobIter (sched.count true) p.2) := by
  intro sched
  induction sched with
  | nil => intro p; rfl
  | cons b rest ih =>
    intro p
    show runPair rest (if b then (p.1, jobStep p.2) else (jobStep p.1, p.2)) = _
    rw [ih]
    cases b with
    | false =>
      rw [List.count_cons_self, List.count_cons_of_ne (by decide)]
      rfl
    | true =>
      rw [List.count_cons_self, List.count_cons_of_ne (by decide)]
      rfl

theorem jobIter_stable (j : Job) (hdone : j.done = false) (n : Nat)
    (h : j.pending.length + 1 ≤ n) :
    jobIter n j = jobIter (j.pending.length + 1) j := by
  obtain ⟨m, rfl⟩ : ∃ m, n = (j.pending.length + 1) + m :=
    ⟨n - (j.pending.length + 1), by omega⟩
  rw [jobIter_add]
  exact jobIter_done _ (by rw [jobIter_run j.pending j hdone rfl]) m

theorem translate_json_file_model_eq_finish (cfg : TransConfig)
    (dict : List (Str × Str)) (oracle : Nat → Nat → Option Str)
    (tb : Nat → Except Unit (List Str)) (st : LLMState) (blocks : List Block) :
    ((translate_json_file_model cfg dict oracle tb st blocks).1,
     (translate_json_file_model cfg dict oracle tb st blocks).2.1)
      = finishFile cfg st tb
          (run_batches cfg dict oracle blocks
            (chunks cfg.batch_size (collect_all_items blocks)) 0).1
          (run_batches cfg dict oracle blocks
            (chunks cfg.batch_size (collect_all_items blocks)) 0).2.2.1 := by
  unfold translate_json_file_model translate_json_batched finishFile
  by_cases hi : collect_all_items blocks = []
  · rw [if_pos hi, hi]
    rfl
  · rw [if_neg hi]
    dsimp only
    split <;> rfl

/-- C8.  Two concurrently processed files, each on its own pipeline
instance (`initJob`), interleaved by an arbitrary schedule that grants each
worker enough steps: each worker's final record set and final model state
equal exactly its own isolated sequential pipeline run
(`translate_json_file_model` on its own configuration, dictionary, oracles
and input) — independent of the schedule and of everything about the other
worker, so neither translated output nor model configuration can
cross-contaminate. -/
theorem c8_concurrent_isolation (cfg1 cfg2 : TransConfig)
    (dict1 dict2 : List (Str × Str)) (or1 or2 : Nat → Nat → Option Str)
    (tb1 tb2 : Nat → Except Unit (List Str)) (st1 st2 : LLMState)
    (bl1 bl2 : List Block) (sched : List Bool)
    (h1 : jobSteps (initJob cfg1 dict1 or1 tb1 st1 bl1) ≤ sched.count false)
    (h2 : jobSteps (initJob cfg2 dict2 or2 tb2 st2 bl2) ≤ sched.count true) :
    (((runPair sched (initJob cfg1 dict1 or1 tb1 st1 bl1,
          initJob cfg2 dict2 or2 tb2 st2 bl2)).1.blocks,
      (runPair sched (initJob cfg1 dict1 or1 tb1 st1 bl1,
          initJob cfg2 dict2 or2 tb2 st2 bl2)).1.st)
        = ((translate_json_file_model cfg1 dict1 or1 tb1 st1 bl1).1,
           (translate_json_file_model cfg1 dict1 or1 tb1 st1 bl1).2.1))
    ∧ (((runPair sched (initJob cfg1 dict1 or1 tb1 st1 bl1,
          initJob cfg2 dict2 or2 tb2 st2 bl2)).2.blocks,
      (runPair sched (initJob cfg1 dict1 or1 tb1 st1 bl1,
          initJob cfg2 dict2 or2 tb2 st2 bl2)).2.st)
        = ((translate_json_file_model cfg2 dict2 or2 tb2 st2 bl2).1,
           (translate_json_file_model cfg2 dict2 or2 tb2 st2 bl2).2.1)) := by
  rw [runPair_eq]
  constructor
  · rw [jobIter_stable (initJob cfg1 dict1 or1 tb1 st1 bl1) rfl
      (sched.count false) h1]
    rw [jobIter_run (initJob cfg1 dict1 or1 tb1 st1 bl1).pending
      (initJob cfg1 dict1 or1 tb1 st1 bl1) rfl rfl]
    rw [translate_json_file_model_eq_finish]
    rfl
  · rw [jobIter_stable (initJob cfg2 dict2 or2 tb2 st2 bl2) rfl
      (sched.count true) h2]
    rw [jobIter_run (initJob cfg2 dict2 or2 tb2 st2 bl2).pending
      (initJob cfg2 dict2 or2 tb2 st2 bl2) rfl rfl]
    rw [translate_json_file_model_eq_finish]
    rfl

/-- A second, distinct record set for the concurrency witness. -/
def blocksC8 : List Block :=
  [{ jpName := "P".data, enName := "Pi".data, jpText := "Q".data,
     enText := "Qu".data, choices := [] }]

/-- Witness for C8 at a concrete schedule and two concrete jobs with
different oracles. -/
theorem c8_concurrent_isolation_witness :
    (((runPair [false, true] (initJob cfgD [] (fun _ _ => none)
          (fun _ => Except.error ()) stD blocksC1W,
        initJob cfgD [] (fun _ _ => some "1. X".data)
          (fun _ => Except.ok []) stD blocksC8)).1.blocks,
      (runPair [false, true] (initJob cfgD [] (fun _ _ => none)
          (fun _ => Except.error ()) stD blocksC1W,
        initJob cfgD [] (fun _ _ => some "1. X".data)
          (fun _ => Except.ok []) stD blocksC8)).1.st)
        = ((translate_json_file_model cfgD [] (fun _ _ => none)
            (fun _ => Except.error ()) stD blocksC1W).1,
           (translate_json_file_model cfgD [] (fun _ _ => none)
            (fun _ => Except.error ()) stD blocksC1W).2.1))
    ∧ (((runPair [false, true] (initJob cfgD [] (fun _ _ => none)
          (fun _ => Except.error ()) stD blocksC1W,
        initJob cfgD [] (fun _ _ => some "1. X".data)
          (fun _ => Except.ok []) stD blocksC8)).2.blocks,
      (runPair [false, true] (initJob cfgD [] (fun _ _ => none)
          (fun _ => Except.error ()) stD blocksC1W,
        initJob cfgD [] (fun _ _ => some "1. X".data)
          (fun _ => Except.ok []) stD blocksC8)).2.st)
        = ((translate_json_file_model cfgD [] (fun _ _ => some "1. X".data)
            (fun _ => Except.ok []) stD blocksC8).1,
           (translate_json_file_model cfgD [] (fun _ _ => some "1. X".data)
            (fun _ => Except.ok []) stD blocksC8).2.1)) :=
  c8_concurrent_isolation cfgD cfgD [] [] (fun _ _ => none)
    (fun _ _ => some "1. X".data) (fun _ => Except.error ())
    (fun _ => Except.ok []) stD stD blocksC1W blocksC8 [false, true]
    (by decide) (by decide)

end MTL
